import Mathlib

/-!
Verification of the shape/stride core of the ndarray repository
(file src/dimension.rs) against its natural-language specification.

The Rust source works on machine integers: Ix is usize (64-bit unsigned)
and Ixs is isize (64-bit signed); strides are stored as usize and
reinterpreted as isize for offset arithmetic.  We embed usize values as
Nat and isize values as Int, and make every wrap-around explicit with
reductions modulo 2 ^ 64, matching release-mode (two's-complement
wrapping) semantics of the unchecked arithmetic in the source.
Fallible code (panics, checked arithmetic) is embedded with Option /
Except.
-/

set_option autoImplicit false

/-- Number of values of a 64-bit machine word: 2 ^ 64. -/
def usizeW : Nat := 2 ^ 64

/-- Half of the word range, 2 ^ 63: the first usize value whose
isize reinterpretation is negative. -/
def halfW : Nat := 2 ^ 63

/-- Reinterpret a usize bit pattern (a Nat below 2 ^ 64) as an isize,
the `x as Ixs` cast of the source. -/
def toIxs (n : Nat) : Int :=
  if n < halfW then (n : Int) else (n : Int) - (usizeW : Int)

/-- Two's-complement wrap of an integer into the isize range
[-2 ^ 63, 2 ^ 63).  This is what release-mode Rust arithmetic on isize
does on overflow. -/
def wrapIsize (z : Int) : Int :=
  (z + (halfW : Int)) % (usizeW : Int) - (halfW : Int)

/-- Reinterpret an isize value as a usize bit pattern, the `x as Ix`
cast of the source. -/
def usizeOfIsize (z : Int) : Nat :=
  (z % (usizeW : Int)).toNat

/-- Wrapping usize decrement, the `x - 1` (respectively `*index -= 1`)
of the source on unsigned machine integers. -/
def wsub1 (n : Nat) : Nat := (n + usizeW - 1) % usizeW

/-- Embedding of the free function stride_offset of dimension.rs:
(n as isize) * ((stride as Ixs) as isize), with the release-mode
wrapping multiplication made explicit. -/
def stride_offset (n stride : Nat) : Int :=
  wrapIsize (toIxs n * toIxs stride)

/-- Alias of the free stride_offset for use inside the Ix1 / Ix2 / Ix3
namespaces, where the bare name would resolve to the override being
defined. -/
def rawStrideOffset (n stride : Nat) : Int := stride_offset n stride

/-- Embedding of checked_mul on isize: the product if it fits the
isize range, none otherwise. -/
def checkedMulIsize (a b : Int) : Option Int :=
  if -(halfW : Int) ≤ a * b ∧ a * b < (halfW : Int) then some (a * b) else none

/-- Embedding of checked_add on isize. -/
def checkedAddIsize (a b : Int) : Option Int :=
  if -(halfW : Int) ≤ a + b ∧ a + b < (halfW : Int) then some (a + b) else none

/-!  Generic Dimension trait defaults.  A shape or stride vector of any
rank is embedded as a List Nat of its usize components (the slice view
the generic default methods operate on); the fixed-rank structs appear
further below.  -/

/-- Embedding of the generic Dimension::size default: a left fold of
wrapping usize multiplication over the extents. -/
def size (dim : List Nat) : Nat :=
  dim.foldl (fun s a => (s * a) % usizeW) 1

/-- Embedding of the generic Dimension::size_checked default: the same
fold with checked_mul, none on overflow. -/
def size_checked (dim : List Nat) : Option Nat :=
  dim.foldl (fun s a => s.bind (fun x => if x * a < usizeW then some (x * a) else none))
    (some 1)

/-- Helper for the default_strides / fortran_strides loops: given the
running cumulative product and the extents still to traverse, produce
the successive cumulative products (with wrapping usize multiplication),
one stride slot per extent consumed. -/
def cumProdGo : Nat → List Nat → List Nat
  | _, [] => []
  | cp, d :: rest =>
    let cp2 := (cp * d) % usizeW
    cp2 :: cumProdGo cp2 rest

/-- Embedding of the generic Dimension::default_strides default
(row-major): the innermost slot becomes 1 and each further slot (walking
outward) the cumulative product of the extents inward of it. -/
def default_strides (dim : List Nat) : List Nat :=
  match dim.reverse with
  | [] => []
  | _ :: _ => ((1 : Nat) :: cumProdGo 1 dim.reverse.dropLast).reverse

/-- Embedding of the generic Dimension::fortran_strides default
(column-major): the outermost slot becomes 1 and each further slot the
cumulative product of the extents outward of it. -/
def fortran_strides (dim : List Nat) : List Nat :=
  match dim with
  | [] => []
  | _ :: _ => (1 : Nat) :: cumProdGo 1 dim.dropLast

/-- Embedding of the generic Dimension::first_index default: none if
some extent is 0, otherwise the all-zero index. -/
def first_index (dim : List Nat) : Option (List Nat) :=
  if dim.any (fun a => a == 0) then none else some (dim.map (fun _ => 0))

/-- Loop of the generic Dimension::next_for default.  The source walks
the zipped (extent, index-slot) pairs in reverse order, so this helper
receives the reversed extents and the reversed index: increment the slot
(wrapping); on reaching the extent zero it and carry, otherwise stop.
The ranks of a shape and an index of the same Dimension type are equal,
so the zip truncation of the source never cuts anything. -/
def next_for_go : List Nat → List Nat → Option (List Nat)
  | d :: ds, i :: is =>
    let i2 := (i + 1) % usizeW
    if i2 = d then (next_for_go ds is).map (fun t => 0 :: t)
    else some (i2 :: is)
  | _, _ => none

/-- Embedding of the generic Dimension::next_for default. -/
def next_for (dim index : List Nat) : Option (List Nat) :=
  (next_for_go dim.reverse index.reverse).map List.reverse

/-- Accumulation loop of the generic Dimension::stride_offset default:
offset += stride_offset(i, s) over the zipped pairs, with release-mode
wrapping isize addition. -/
def stride_offset_sum_go : Int → List Nat → List Nat → Int
  | acc, i :: is, s :: ss => stride_offset_sum_go (wrapIsize (acc + stride_offset i s)) is ss
  | acc, _, _ => acc

/-- Embedding of the generic (static) Dimension::stride_offset default:
the wrapped sum of the per-axis offsets of an index against a stride
vector. -/
def Dimension.stride_offset (index strides : List Nat) : Int :=
  stride_offset_sum_go 0 index strides

/-- Loop of the generic Dimension::stride_offset_checked default: walk
(extent, index, stride) triples; fail on the first out-of-range index
component, otherwise accumulate the wrapped offset. -/
def stride_offset_checked_go : Int → List Nat → List Nat → List Nat → Option Int
  | acc, d :: ds, i :: is, s :: ss =>
    if i ≥ d then none
    else stride_offset_checked_go (wrapIsize (acc + stride_offset i s)) ds is ss
  | acc, _, _, _ => some acc

/-- Embedding of the generic Dimension::stride_offset_checked default. -/
def stride_offset_checked (dim strides index : List Nat) : Option Int :=
  stride_offset_checked_go 0 dim index strides

/-- Embedding of the NdIndex::index_checked implementation for an index
of the same Dimension type as the shape: it simply defers to
stride_offset_checked. -/
def index_checked (self dim strides : List Nat) : Option Int :=
  stride_offset_checked dim strides self

/-- Embedding of the generic Dimension::equal default: slice
equality. -/
def Dimension.equal (a b : List Nat) : Bool := a == b

/-- Embedding of the generic Dimension::last_elem default. -/
def last_elem (dim : List Nat) : Nat :=
  if dim.length = 0 then 0 else dim.getD (dim.length - 1) 0

/-- Embedding of the generic Dimension::set_last_elem default.  The
source indexes slot ndim - 1 unconditionally, which panics on rank 0
(usize underflow makes the index huge); the panic is embedded as none. -/
def set_last_elem (dim : List Nat) (i : Nat) : Option (List Nat) :=
  if dim.length = 0 then none else some (dim.set (dim.length - 1) i)

/-- Embedding of the generic Dimension::_fastest_varying_stride_order
default: the axis indices sorted by ascending stride value (usize
comparison).  Rust sort_by_key is a stable sort, and the stable
ascending sort of a list is unique, so the stable insertionSort gives
exactly its result. -/
def fastest_varying_stride_order (strides : List Nat) : List Nat :=
  List.insertionSort (fun i j => strides.getD i 0 ≤ strides.getD j 0)
    (List.range strides.length)

/-- Loop of the free function dim_stride_overlap: walk the axes in the
given order keeping prev_offset; report overlap on the first axis whose
extent is not 1 and whose signed stride is below prev_offset; otherwise
replace prev_offset by stride_offset(extent, stride) and continue. -/
def overlap_go (dim strides : List Nat) : List Nat → Int → Bool
  | [], _ => false
  | idx :: rest, prev =>
    let d := dim.getD idx 0
    let s := strides.getD idx 0
    if d ≠ 1 ∧ toIxs s < prev then true
    else overlap_go dim strides rest (stride_offset d s)

/-- Embedding of the free function dim_stride_overlap of dimension.rs. -/
def dim_stride_overlap (dim strides : List Nat) : Bool :=
  overlap_go dim strides (fastest_varying_stride_order strides) 1

/-- Modelled from the spec: the two recoverable error kinds of the
error module (which is not part of the provided source file).  Section 7
of the specification fixes exactly two kinds, OutOfBounds and
Unsupported, and can_index_slice only ever constructs these two. -/
inductive ErrorKind
  | OutOfBounds
  | Unsupported
  deriving DecidableEq, Repr

/-- Loop of the free function stride_offset_checked_arithmetic: walk
(extent, index, stride) triples; fail when an index component is out of
range or when the checked multiply / checked add of the offset
arithmetic overflows the isize range. -/
def soca_go : Int → List Nat → List Nat → List Nat → Option Int
  | acc, d :: ds, i :: is, s :: ss =>
    if i ≥ d then none
    else
      match checkedMulIsize (toIxs i) (toIxs s) with
      | none => none
      | some p =>
        match checkedAddIsize p acc with
        | none => none
        | some acc2 => soca_go acc2 ds is ss
  | acc, _, _, _ => some acc

/-- Embedding of the free function stride_offset_checked_arithmetic of
dimension.rs. -/
def stride_offset_checked_arithmetic (dim strides index : List Nat) : Option Int :=
  soca_go 0 dim index strides

/-- Embedding of the free function can_index_slice of dimension.rs.
The data buffer is kept polymorphic exactly as in the source
(can_index_slice::<A, D>); only its length is ever consulted. -/
def can_index_slice {A : Type _} (data : List A) (dim strides : List Nat) :
    Except ErrorKind Unit :=
  match size_checked dim with
  | none => .error .OutOfBounds
  | some len =>
    if strides.any (fun s => decide (toIxs s < 1 ∧ (len ≠ 0 ∨ toIxs s < 0))) then
      .error .Unsupported
    else if len = 0 then .ok ()
    else
      let last_index := dim.map (fun d => wsub1 d)
      match stride_offset_checked_arithmetic dim strides last_index with
      | none => .error .OutOfBounds
      | some offset =>
        if usizeOfIsize offset ≥ data.length then .error .OutOfBounds
        else if dim_stride_overlap dim strides then .error .Unsupported
        else .ok ()

/-!  Slicing transform (Dimension::do_slices).  -/

/-- Embedding of the elementary range descriptor Si(start, end, step) of
the source: signed start, optional signed end, signed step. -/
structure Si where
  start : Int
  stop : Option Int
  step : Int
  deriving DecidableEq, Repr

/-- Embedding of the free function abs_index: a negative index is
resolved from the end as len + index (a wrapping isize addition followed
by an as-Ix cast, together a reduction modulo 2 ^ 64), a non-negative
one is cast to Ix directly. -/
def abs_index (len index : Int) : Nat :=
  if index < 0 then usizeOfIsize (len + index) else usizeOfIsize index

/-- Embedding of isize::abs followed by an as-Ix cast (the
s1.abs() as Ix of the source); release-mode abs wraps at the minimum
isize value. -/
def absIx (z : Int) : Nat := usizeOfIsize (wrapIsize |z|)

/-- One iteration of the Dimension::do_slices loop, for one axis with
extent m and stride sr under descriptor slc.  The asserts of the source
(resolved bounds at most m, nonzero step) are embedded as none; on
success the new extent, the new stride and this axis's contribution to
the data pointer offset are returned. -/
def sliceAxis (m sr : Nat) (slc : Si) : Option (Nat × Nat × Int) :=
  let mi := toIxs m
  let e0 := slc.stop.getD mi
  let b1 := abs_index mi slc.start
  let e1 := abs_index mi e0
  let e2 := if e1 < b1 then b1 else e1
  if b1 ≤ m ∧ e2 ≤ m ∧ slc.step ≠ 0 then
    let m2 := e2 - b1
    let off := wrapIsize (stride_offset b1 sr +
      (if slc.step < 0 then stride_offset (wsub1 m2) sr else 0))
    let s_prim := usizeOfIsize (wrapIsize (toIxs sr * slc.step))
    let k := absIx slc.step
    let d := m2 / k
    let r := m2 % k
    some (d + (if 0 < r then 1 else 0), s_prim, off)
  else none

/-- Loop of Dimension::do_slices over the zipped axes, accumulating the
data pointer offset with wrapping isize addition.  The shape and stride
vectors of one Dimension type always have equal rank. -/
def do_slices_go : List Nat → List Nat → List Si → Int → Option (List Nat × List Nat × Int)
  | ds, ss, [], acc => some (ds, ss, acc)
  | [], ss, _, acc => some ([], ss, acc)
  | ds, [], _, acc => some (ds, [], acc)
  | d :: ds, s :: ss, sl :: sls, acc =>
    match sliceAxis d s sl with
    | none => none
    | some (d2, s2, c) =>
      (do_slices_go ds ss sls (wrapIsize (acc + c))).map
        (fun t => (d2 :: t.1, s2 :: t.2.1, t.2.2))

/-- Embedding of Dimension::do_slices: the entry assertion that the
descriptor count equals the rank, then the per-axis loop.  The returned
triple holds the new shape, the new strides and the accumulated pointer
offset. -/
def do_slices (dim strides : List Nat) (slices : List Si) : Option (List Nat × List Nat × Int) :=
  if slices.length = dim.length then do_slices_go dim strides slices 0 else none

/-!  Contiguity check (generic Dimension::is_contiguous default).  -/

/-- Loop of Dimension::is_contiguous: walk the axes in fastest-varying
order keeping the expected contiguous stride; an axis of extent 1
tolerates any stride; the cumulative product uses wrapping usize
multiplication. -/
def is_contiguous_go (dim strides : List Nat) : List Nat → Nat → Bool
  | [], _ => true
  | i :: rest, cstride =>
    if dim.getD i 0 ≠ 1 ∧ strides.getD i 0 ≠ cstride then false
    else is_contiguous_go dim strides rest ((cstride * dim.getD i 0) % usizeW)

/-- Embedding of the generic Dimension::is_contiguous default. -/
def is_contiguous (dim strides : List Nat) : Bool :=
  if strides = default_strides dim then true
  else if dim.length = 1 then false
  else is_contiguous_go dim strides (fastest_varying_stride_order strides) 1

/-!  Fixed-rank implementations.  Ix1 is embedded as Nat, Ix2 as a pair
and Ix3 as a triple of usize components, mirroring the inline arrays of
the source; each overridden method is transcribed from its impl block.  -/

/-- View an Ix1 value as the extent sequence the generic defaults see. -/
def ix1ToList (n : Nat) : List Nat := [n]

/-- View an Ix2 value as the extent sequence the generic defaults see. -/
def ix2ToList (p : Nat × Nat) : List Nat := [p.1, p.2]

/-- View an Ix3 value as the extent sequence the generic defaults see. -/
def ix3ToList (p : Nat × Nat × Nat) : List Nat := [p.1, p.2.1, p.2.2]

/-- Slice indexing of an Ix2 value (self[i] of the source) for the two
valid positions. -/
def tupGet2 (p : Nat × Nat) (i : Nat) : Nat := if i = 0 then p.1 else p.2

/-- Embedding of the Ix1 override of next_for. -/
def Ix1.next_for (self index : Nat) : Option Nat :=
  let i := (index + 1) % usizeW
  if i < self then some i else none

/-- Embedding of the Ix1 override of equal. -/
def Ix1.equal (a b : Nat) : Bool := a == b

/-- Embedding of the Ix1 override of size. -/
def Ix1.size (self : Nat) : Nat := self

/-- Embedding of the Ix1 override of size_checked. -/
def Ix1.size_checked (self : Nat) : Option Nat := some self

/-- Embedding of the Ix1 override of default_strides. -/
def Ix1.default_strides (_self : Nat) : Nat := 1

/-- Embedding of the Ix1 override of _fastest_varying_stride_order. -/
def Ix1.fastest_varying_stride_order (_self : Nat) : Nat := 0

/-- Embedding of the Ix1 override of first_index. -/
def Ix1.first_index (self : Nat) : Option Nat :=
  if self ≠ 0 then some 0 else none

/-- Embedding of the Ix1 override of stride_offset. -/
def Ix1.stride_offset (index stride : Nat) : Int := rawStrideOffset index stride

/-- Embedding of the Ix1 override of stride_offset_checked. -/
def Ix1.stride_offset_checked (self stride index : Nat) : Option Int :=
  if index < self then some (rawStrideOffset index stride) else none

/-- Embedding of the Ix2 override of next_for. -/
def Ix2.next_for (self index : Nat × Nat) : Option (Nat × Nat) :=
  let j := (index.2 + 1) % usizeW
  if j ≥ self.2 then
    let i := (index.1 + 1) % usizeW
    if i ≥ self.1 then none else some (i, 0)
  else some (index.1, j)

/-- Embedding of the Ix2 override of equal. -/
def Ix2.equal (a b : Nat × Nat) : Bool := a.1 == b.1 && a.2 == b.2

/-- Embedding of the Ix2 override of size (a wrapping usize product). -/
def Ix2.size (self : Nat × Nat) : Nat := (self.1 * self.2) % usizeW

/-- Embedding of the Ix2 override of size_checked. -/
def Ix2.size_checked (self : Nat × Nat) : Option Nat :=
  if self.1 * self.2 < usizeW then some (self.1 * self.2) else none

/-- Embedding of the Ix2 override of last_elem. -/
def Ix2.last_elem (self : Nat × Nat) : Nat := self.2

/-- Embedding of the Ix2 override of set_last_elem. -/
def Ix2.set_last_elem (self : Nat × Nat) (i : Nat) : Nat × Nat := (self.1, i)

/-- Embedding of the Ix2 override of default_strides. -/
def Ix2.default_strides (self : Nat × Nat) : Nat × Nat := (self.2, 1)

/-- Embedding of the Ix2 override of fortran_strides. -/
def Ix2.fortran_strides (self : Nat × Nat) : Nat × Nat := (1, self.1)

/-- Embedding of the Ix2 override of _fastest_varying_stride_order:
unlike the generic default it compares the two strides as signed
values. -/
def Ix2.fastest_varying_stride_order (self : Nat × Nat) : Nat × Nat :=
  if toIxs self.1 ≤ toIxs self.2 then (0, 1) else (1, 0)

/-- Embedding of the Ix2 override of first_index. -/
def Ix2.first_index (self : Nat × Nat) : Option (Nat × Nat) :=
  if self.1 ≠ 0 ∧ self.2 ≠ 0 then some (0, 0) else none

/-- Embedding of the Ix2 override of stride_offset (one wrapping isize
addition of the two per-axis offsets). -/
def Ix2.stride_offset (index strides : Nat × Nat) : Int :=
  wrapIsize (rawStrideOffset index.1 strides.1 + rawStrideOffset index.2 strides.2)

/-- Embedding of the Ix2 override of stride_offset_checked. -/
def Ix2.stride_offset_checked (self strides index : Nat × Nat) : Option Int :=
  if index.1 < self.1 ∧ index.2 < self.2 then
    some (wrapIsize (rawStrideOffset index.1 strides.1 + rawStrideOffset index.2 strides.2))
  else none

/-- Embedding of the Ix2 override of is_contiguous.  Its body is a
verbatim copy of the generic default (with the rank-1 early exit
statically false at rank 2), but it dispatches to the Ix2 overrides of
default_strides and _fastest_varying_stride_order; the two-iteration
walk over the order is unrolled. -/
def Ix2.is_contiguous (dim strides : Nat × Nat) : Bool :=
  if strides = Ix2.default_strides dim then true
  else
    let order := Ix2.fastest_varying_stride_order strides
    if tupGet2 dim order.1 ≠ 1 ∧ tupGet2 strides order.1 ≠ 1 then false
    else
      let c1 := (1 * tupGet2 dim order.1) % usizeW
      if tupGet2 dim order.2 ≠ 1 ∧ tupGet2 strides order.2 ≠ c1 then false
      else true

/-- Embedding of the Ix3 override of size (left-associated wrapping
usize products). -/
def Ix3.size (self : Nat × Nat × Nat) : Nat :=
  ((self.1 * self.2.1) % usizeW * self.2.2) % usizeW

/-- Embedding of the Ix3 override of next_for. -/
def Ix3.next_for (self index : Nat × Nat × Nat) : Option (Nat × Nat × Nat) :=
  let k2 := (index.2.2 + 1) % usizeW
  if k2 = self.2.2 then
    let j2 := (index.2.1 + 1) % usizeW
    if j2 = self.2.1 then
      let i2 := (index.1 + 1) % usizeW
      if i2 = self.1 then none else some (i2, 0, 0)
    else some (index.1, j2, 0)
  else some (index.1, index.2.1, k2)

/-- Embedding of the Ix3 override of stride_offset (left-associated
wrapping isize additions). -/
def Ix3.stride_offset (index strides : Nat × Nat × Nat) : Int :=
  wrapIsize (wrapIsize (rawStrideOffset index.1 strides.1 + rawStrideOffset index.2.1 strides.2.1) +
    rawStrideOffset index.2.2 strides.2.2)

/-- Embedding of the Ix3 override of _fastest_varying_stride_order: a
stable three-element sorting network (swap slots 1-2, 0-1, 1-2, each on
a strict unsigned comparison), carrying the axis order along. -/
def Ix3.fastest_varying_stride_order (self : Nat × Nat × Nat) : Nat × Nat × Nat :=
  let s0 := self.1
  let s1 := self.2.1
  let s2 := self.2.2
  let t := if s1 > s2 then (s0, s2, s1, (0 : Nat), (2 : Nat), (1 : Nat))
           else (s0, s1, s2, (0 : Nat), (1 : Nat), (2 : Nat))
  let u := if t.1 > t.2.1 then (t.2.1, t.1, t.2.2.1, t.2.2.2.2.1, t.2.2.2.1, t.2.2.2.2.2)
           else t
  if u.2.1 > u.2.2.1 then (u.2.2.2.1, u.2.2.2.2.2, u.2.2.2.2.1)
  else (u.2.2.2.1, u.2.2.2.2.1, u.2.2.2.2.2)

/-!  Axis removal (the RemoveAxis relation).  -/

/-- Embedding of the RemoveAxis impl for Ix1: the axis argument is
ignored and the rank-0 shape is returned. -/
def Ix1.remove_axis (_self : Nat) (_axis : Nat) : Unit := ()

/-- Embedding of the RemoveAxis impl for Ix2: keep the other extent
(the axis bound is only debug-asserted, so any axis other than 0 keeps
the first extent). -/
def Ix2.remove_axis (self : Nat × Nat) (axis : Nat) : Nat :=
  if axis = 0 then self.2 else self.1

/-- Loop of the macro-generated RemoveAxis impls for ranks 3 to 5:
iterate the extents with their position, skip the extent at the given
axis, and write the others into the successive slots of a result
pre-filled with zeros while slots remain. -/
def remove_axis_go : List Nat → Nat → Nat → Nat → List Nat
  | [], slots, _i, _axis => List.replicate slots 0
  | d :: rest, slots, i, axis =>
    if i = axis then remove_axis_go rest slots (i + 1) axis
    else
      match slots with
      | 0 => []
      | s + 1 => d :: remove_axis_go rest s (i + 1) axis

/-- Embedding of the macro-generated RemoveAxis impls for the fixed
array ranks 3 to 5 (the same algorithm at every rank, with rank - 1
result slots). -/
def remove_axis_fixed (self : List Nat) (axis : Nat) : List Nat :=
  remove_axis_go self (self.length - 1) 0 axis

/-- Embedding of the RemoveAxis impl for the dynamic rank: Vec::remove
panics (embedded as none) when the axis is not below the rank. -/
def IxDyn.remove_axis (self : List Nat) (axis : Nat) : Option (List Nat) :=
  if axis < self.length then some (self.eraseIdx axis) else none

/-!  Row-major enumeration helpers.  These are specification-side
definitions used to state and prove the enumeration claims; the code
being verified is first_index / next_for above.  -/

/-- The first k values of the sequence obtained from first_index by
repeatedly applying next_for: enum S k is the index reached after k
applications (none once the sequence is exhausted). -/
def enum (S : List Nat) : Nat → Option (List Nat)
  | 0 => first_index S
  | k + 1 => (enum S k).bind (next_for S)

/-- Row-major rank of an index: most significant digit first, each
digit weighted by the product of the extents after it. -/
def valFwd : List Nat → List Nat → Nat
  | _ :: ds, i :: is => i * ds.prod + valFwd ds is
  | _, _ => 0

/-- Least-significant-first counterpart of valFwd, matching the
reversed traversal of next_for. -/
def valRev : List Nat → List Nat → Nat
  | d :: ds, i :: is => i + d * valRev ds is
  | _, _ => 0

/-- Mixed-radix digits of a number, least significant first, one digit
per extent. -/
def digitsRev : List Nat → Nat → List Nat
  | [], _ => []
  | d :: ds, k => (k % d) :: digitsRev ds (k / d)

/-- The k-th index of a shape in row-major order. -/
def fromIdx (S : List Nat) (k : Nat) : List Nat :=
  (digitsRev S.reverse k).reverse

/-- Componentwise bounds check of an index against a shape of the same
rank. -/
def inb : List Nat → List Nat → Bool
  | [], [] => true
  | d :: ds, i :: is => decide (i < d) && inb ds is
  | _, _ => false

/-- Specification-side description of the overlap walk (claim C3): the
prev_offset value in force when the walk in the given axis order
reaches position k, starting from p0: p0 at the start, afterwards
stride_offset(extent, stride) of the previous axis in the order. -/
def prevAt (dim strides ord : List Nat) (p0 : Int) : Nat → Int
  | 0 => p0
  | k + 1 =>
    stride_offset (dim.getD (ord.getD k 0) 0) (strides.getD (ord.getD k 0) 0)

/-- Specification-side trigger of the overlap walk (claim C3): position
k reports overlap when its axis has extent not 1 and signed stride
below the prev_offset in force there. -/
def trigAt (dim strides ord : List Nat) (p0 : Int) (k : Nat) : Prop :=
  dim.getD (ord.getD k 0) 0 ≠ 1 ∧
    toIxs (strides.getD (ord.getD k 0) 0) < prevAt dim strides ord p0 k

/-- Specification-side resolution of one slice bound (claims C4 and
C5): a negative value is interpreted as extent + value, a non-negative
one stands for itself. -/
def resolveIdx (m : Nat) (v : Int) : Nat :=
  (if v < 0 then (m : Int) + v else v).toNat

/-- Machine-validity conditions for one sliced axis: the extent fits
the signed range, the stride is a machine word, the descriptor values
are signed machine words that resolve to non-negative positions, the
step is nonzero, and the new stride does not overflow the signed
multiplication. -/
def AxOK (m sr : Nat) (slc : Si) : Prop :=
  m < halfW ∧ sr < usizeW ∧
  (-(m : Int) ≤ slc.start ∧ slc.start < (halfW : Int)) ∧
  (∀ e ∈ slc.stop, -(m : Int) ≤ e ∧ e < (halfW : Int)) ∧
  slc.step ≠ 0 ∧ (-(halfW : Int) ≤ slc.step ∧ slc.step < (halfW : Int)) ∧
  (-(halfW : Int) ≤ toIxs sr * slc.step ∧ toIxs sr * slc.step < (halfW : Int))

/-- Specification-side displacement contribution of one sliced axis
(claim C4, amended): start times the original signed stride, plus, for
a negative step, (end - start - 1) times the original signed stride,
start and end being the resolved and clamped bounds. -/
def contrib (m sr : Nat) (slc : Si) : Int :=
  let bs := resolveIdx m slc.start
  let esc := max bs (resolveIdx m (slc.stop.getD (m : Int)))
  (bs : Int) * toIxs sr +
    (if slc.step < 0 then ((esc : Int) - (bs : Int) - 1) * toIxs sr else 0)

/-- Per-axis displacement contributions of a slicing call, one per
zipped (extent, stride, descriptor) triple. -/
def contribs : List Nat → List Nat → List Si → List Int
  | m :: ds, s :: ss, c :: cs => contrib m s c :: contribs ds ss cs
  | _, _, _ => []

/-- Sum of the per-axis magnitude bounds (extent + 1) times the
absolute signed stride, used to keep the accumulated displacement
inside the isize range. -/
def boundSum : List Nat → List Nat → Int
  | m :: ds, s :: ss => ((m : Int) + 1) * |toIxs s| + boundSum ds ss
  | _, _ => 0

/-!  Basic facts about the machine-integer model.  -/

theorem usizeW_eq_two_halfW : (usizeW : Int) = 2 * (halfW : Int) := by
  norm_num [usizeW, halfW]

theorem usizeW_int_pos : (0 : Int) < (usizeW : Int) := by norm_num [usizeW]

theorem wrapIsize_eq_self {z : Int} (h1 : -(halfW : Int) ≤ z) (h2 : z < (halfW : Int)) :
    wrapIsize z = z := by
  unfold wrapIsize
  rw [Int.emod_eq_of_lt (by omega) (by rw [usizeW_eq_two_halfW]; omega)]
  omega

theorem wrapIsize_bounds (z : Int) :
    -(halfW : Int) ≤ wrapIsize z ∧ wrapIsize z < (halfW : Int) := by
  unfold wrapIsize
  have h1 := Int.emod_nonneg (z + (halfW : Int)) (ne_of_gt usizeW_int_pos)
  have h2 := Int.emod_lt_of_pos (z + (halfW : Int)) usizeW_int_pos
  have hW := usizeW_eq_two_halfW
  omega

theorem wrapIsize_add_left (x y : Int) :
    wrapIsize (wrapIsize x + y) = wrapIsize (x + y) := by
  unfold wrapIsize
  have : (x + (halfW : Int)) % (usizeW : Int) - (halfW : Int) + y + (halfW : Int)
      = (x + (halfW : Int)) % (usizeW : Int) + y := by ring
  rw [this, Int.emod_add_emod]
  ring_nf

theorem wrapIsize_add_right (x y : Int) :
    wrapIsize (x + wrapIsize y) = wrapIsize (x + y) := by
  rw [add_comm x, wrapIsize_add_left, add_comm]

theorem wrapIsize_of_wrapped (z : Int) : wrapIsize (wrapIsize z) = wrapIsize z :=
  wrapIsize_eq_self (wrapIsize_bounds z).1 (wrapIsize_bounds z).2

theorem toIxs_of_lt {n : Nat} (h : n < halfW) : toIxs n = (n : Int) := if_pos h

theorem toIxs_bounds {n : Nat} (h : n < usizeW) :
    -(halfW : Int) ≤ toIxs n ∧ toIxs n < (halfW : Int) := by
  unfold toIxs
  split
  · constructor
    · have : (0 : Int) ≤ (n : Int) := Int.ofNat_nonneg n
      have : (0 : Int) < (halfW : Int) := by norm_num [halfW]
      omega
    · exact_mod_cast (by assumption : n < halfW)
  · have hn : (n : Int) < (usizeW : Int) := by exact_mod_cast h
    have hh : (halfW : Int) ≤ (n : Int) := by
      have := not_lt.mp (by assumption : ¬ n < halfW)
      exact_mod_cast this
    rw [usizeW_eq_two_halfW] at hn ⊢
    omega

theorem toIxs_nonneg {n : Nat} (h : n < halfW) : 0 ≤ toIxs n := by
  rw [toIxs_of_lt h]; exact Int.ofNat_nonneg n

theorem usizeOfIsize_of_nonneg {z : Int} (h1 : 0 ≤ z) (h2 : z < (usizeW : Int)) :
    (usizeOfIsize z : Nat) = z.toNat := by
  unfold usizeOfIsize
  rw [Int.emod_eq_of_lt h1 h2]

theorem usizeOfIsize_toIxs {n : Nat} (h : n < usizeW) : usizeOfIsize (toIxs n) = n := by
  unfold usizeOfIsize toIxs
  split
  · rw [Int.emod_eq_of_lt (Int.ofNat_nonneg n) (by exact_mod_cast h)]
    exact Int.toNat_ofNat n
  · have h0 : ((n : Int) - (usizeW : Int)) % (usizeW : Int) = (n : Int) % (usizeW : Int) := by
      have h4 : (n : Int) - (usizeW : Int) = (n : Int) + (usizeW : Int) * (-1) := by ring
      rw [h4, Int.add_mul_emod_self_left]
    rw [h0, Int.emod_eq_of_lt (Int.ofNat_nonneg n) (by exact_mod_cast h)]
    exact Int.toNat_ofNat n

theorem toIxs_usizeOfIsize {z : Int} (h1 : -(halfW : Int) ≤ z) (h2 : z < (halfW : Int)) :
    toIxs (usizeOfIsize z) = z := by
  unfold usizeOfIsize toIxs
  have hW := usizeW_eq_two_halfW
  rcases le_or_lt 0 z with hz | hz
  · rw [Int.emod_eq_of_lt hz (by omega)]
    have hlt : z.toNat < halfW := by omega
    rw [if_pos hlt]
    exact Int.toNat_of_nonneg hz
  · have hmod : z % (usizeW : Int) = z + (usizeW : Int) := by
      have h3 := Int.add_mul_emod_self_left z (usizeW : Int) 1
      rw [mul_one] at h3
      rw [← h3, Int.emod_eq_of_lt (by omega) (by omega)]
    rw [hmod]
    have hge : ¬ (z + (usizeW : Int)).toNat < halfW := by omega
    rw [if_neg hge]
    omega

theorem wsub1_eq {n : Nat} (h1 : 1 ≤ n) (h2 : n ≤ usizeW) : wsub1 n = n - 1 := by
  unfold wsub1
  have : n + usizeW - 1 = (n - 1) + usizeW := by omega
  rw [this, Nat.add_mod_right]
  exact Nat.mod_eq_of_lt (by omega)

theorem stride_offset_eq {n s : Nat} (hn : n < halfW) (_hs : s < usizeW)
    (h1 : -(halfW : Int) ≤ (n : Int) * toIxs s) (h2 : (n : Int) * toIxs s < (halfW : Int)) :
    stride_offset n s = (n : Int) * toIxs s := by
  unfold stride_offset
  rw [toIxs_of_lt hn]
  exact wrapIsize_eq_self h1 h2

/-!  Facts about size_checked.  -/

theorem size_checked_foldl_none (dims : List Nat) :
    dims.foldl (fun s a => s.bind (fun x => if x * a < usizeW then some (x * a) else none))
      none = none := by
  induction dims with
  | nil => rfl
  | cons d ds ih => simpa using ih

theorem size_checked_foldl_some :
    ∀ (dims : List Nat) (acc : Nat), acc < usizeW →
      ∀ l : Nat,
        dims.foldl (fun s a => s.bind (fun x => if x * a < usizeW then some (x * a) else none))
          (some acc) = some l →
        l = acc * dims.prod ∧ l < usizeW := by
  intro dims
  induction dims with
  | nil =>
    intro acc hacc l hl
    simp only [List.foldl_nil, Option.some.injEq] at hl
    simp [← hl, hacc]
  | cons d ds ih =>
    intro acc hacc l hl
    simp only [List.foldl_cons, Option.some_bind] at hl
    by_cases hda : acc * d < usizeW
    · rw [if_pos hda] at hl
      obtain ⟨h1, h2⟩ := ih (acc * d) hda l hl
      refine ⟨?_, h2⟩
      rw [h1, List.prod_cons]
      ring
    · rw [if_neg hda] at hl
      rw [size_checked_foldl_none ds] at hl
      exact absurd hl (by simp)

theorem size_checked_some {dims : List Nat} {l : Nat} (h : size_checked dims = some l) :
    l = dims.prod ∧ l < usizeW := by
  have := size_checked_foldl_some dims 1 (by norm_num [usizeW]) l h
  simpa using this

theorem mem_le_prod {dims : List Nat} {d : Nat} (hd : d ∈ dims) (h0 : dims.prod ≠ 0) :
    d ≤ dims.prod :=
  Nat.le_of_dvd (Nat.pos_of_ne_zero h0) (List.dvd_prod hd)

theorem prod_ne_zero_mem {dims : List Nat} (h0 : dims.prod ≠ 0) {d : Nat} (hd : d ∈ dims) :
    1 ≤ d := by
  rcases Nat.eq_zero_or_pos d with h | h
  · exact absurd (List.prod_eq_zero (h ▸ hd)) h0
  · exact h

/-- Claim C10: can_index_slice is insensitive to the buffer's element
values and element type; it depends on the buffer only through its
length, so any two buffers of equal length (of any two element types)
yield the same verdict. -/
theorem can_index_slice_depends_only_on_length
    {A B : Type} (xs : List A) (ys : List B) (dim strides : List Nat)
    (h : xs.length = ys.length) :
    can_index_slice xs dim strides = can_index_slice ys dim strides := by
  unfold can_index_slice
  rw [h]

/-- Witness for C10 at concrete inputs: a Bool buffer and a Nat buffer
of length 2 give the same verdict on shape [2] with strides [1]. -/
theorem can_index_slice_depends_only_on_length_witness :
    can_index_slice [true, false] [2] [1] = can_index_slice [(5 : Nat), 9] [2] [1] :=
  can_index_slice_depends_only_on_length [true, false] [(5 : Nat), 9] [2] [1] rfl

/-- Claim C1: for strides that all pass the positivity rule (signed
value at least 1) and a shape of nonzero total size, can_index_slice
fails with OutOfBounds exactly when checked_size overflows, or the
checked offset of the last index (every extent minus one) wraps, or
that offset interpreted as an unsigned position reaches the buffer
length; in particular a buffer of length 12 with shape (2,3,2) succeeds
for strides (1,2,6) and fails with OutOfBounds for strides (2,4,12). -/
theorem can_index_slice_oob_iff {A : Type} (data : List A) (dim strides : List Nat)
    (hpos : ∀ s ∈ strides, 1 ≤ toIxs s) (hprod : dim.prod ≠ 0) :
    (can_index_slice data dim strides = Except.error ErrorKind.OutOfBounds ↔
      size_checked dim = none ∨
      stride_offset_checked_arithmetic dim strides (dim.map wsub1) = none ∨
      ∃ off, stride_offset_checked_arithmetic dim strides (dim.map wsub1) = some off ∧
        data.length ≤ usizeOfIsize off) ∧
    can_index_slice (List.range 12) [2, 3, 2] [1, 2, 6] = Except.ok () ∧
    can_index_slice (List.range 12) [2, 3, 2] [2, 4, 12] =
      Except.error ErrorKind.OutOfBounds := by
  refine ⟨?_, rfl, rfl⟩
  unfold can_index_slice
  cases hsc : size_checked dim with
  | none => simp
  | some len =>
    dsimp only
    obtain ⟨hlen_eq, hlenW⟩ := size_checked_some hsc
    have hlen0 : len ≠ 0 := by rw [hlen_eq]; exact hprod
    have hany : strides.any (fun s => decide (toIxs s < 1 ∧ (len ≠ 0 ∨ toIxs s < 0))) = false := by
      simp only [List.any_eq_false, decide_eq_true_eq, not_and]
      intro s hs hlt
      exact absurd hlt (not_lt.mpr (hpos s hs))
    simp only [hany, Bool.false_eq_true, if_false, if_neg hlen0]
    cases hsoca : stride_offset_checked_arithmetic dim strides (dim.map wsub1) with
    | none => simp
    | some off =>
      dsimp only
      by_cases hge : usizeOfIsize off ≥ data.length
      · rw [if_pos hge]
        simp only [true_iff]
        exact Or.inr (Or.inr ⟨off, rfl, hge⟩)
      · rw [if_neg hge]
        by_cases hov : dim_stride_overlap dim strides
        · rw [if_pos hov]
          constructor
          · intro h; exact absurd h (by simp)
          · rintro (h | h | ⟨off2, hoff2, hge2⟩)
            · exact absurd h (by simp)
            · exact absurd h (by simp)
            · rw [Option.some.injEq] at hoff2
              exact absurd (hoff2 ▸ hge2) hge
        · rw [if_neg hov]
          constructor
          · intro h; exact absurd h (by simp)
          · rintro (h | h | ⟨off2, hoff2, hge2⟩)
            · exact absurd h (by simp)
            · exact absurd h (by simp)
            · rw [Option.some.injEq] at hoff2
              exact absurd (hoff2 ▸ hge2) hge

/-- Witness for C1: at shape [3], strides [1] and an empty buffer the
hypotheses hold and the theorem yields the concrete OutOfBounds
verdict (the last-index offset 2 is not below the buffer length 0). -/
theorem can_index_slice_oob_iff_witness :
    (∀ s ∈ [(1 : Nat)], 1 ≤ toIxs s) ∧ ([3] : List Nat).prod ≠ 0 ∧
    can_index_slice ([] : List Nat) [3] [1] = Except.error ErrorKind.OutOfBounds :=
  ⟨by decide, by decide,
    ((can_index_slice_oob_iff ([] : List Nat) [3] [1] (by decide) (by decide)).1).mpr
      (Or.inr (Or.inr ⟨2, by decide, by decide⟩))⟩

/-- Claim C2 (amended): provided checked_size does not overflow (it
preempts every other check with OutOfBounds when it does),
can_index_slice fails with Unsupported whenever some stride is
negative as a signed value, even when the total size is 0; it fails
with Unsupported whenever some stride is zero while the total size is
nonzero; and when the total size is 0 and no stride is negative it
succeeds for every buffer. -/
theorem can_index_slice_unsupported_cases {A : Type} (data : List A)
    (dim strides : List Nat) (len : Nat) (hsc : size_checked dim = some len) :
    ((∃ s ∈ strides, toIxs s < 0) →
        can_index_slice data dim strides = Except.error ErrorKind.Unsupported) ∧
    (len ≠ 0 → (0 : Nat) ∈ strides →
        can_index_slice data dim strides = Except.error ErrorKind.Unsupported) ∧
    (len = 0 → (∀ s ∈ strides, 0 ≤ toIxs s) →
        can_index_slice data dim strides = Except.ok ()) := by
  refine ⟨?_, ?_, ?_⟩
  · rintro ⟨s, hs, hneg⟩
    unfold can_index_slice
    rw [hsc]
    dsimp only
    have hany : strides.any (fun s => decide (toIxs s < 1 ∧ (len ≠ 0 ∨ toIxs s < 0))) = true :=
      List.any_eq_true.mpr ⟨s, hs, by
        simp only [decide_eq_true_eq]
        exact ⟨hneg.trans one_pos, Or.inr hneg⟩⟩
    simp only [hany, if_true]
  · intro hlen hmem
    unfold can_index_slice
    rw [hsc]
    dsimp only
    have hany : strides.any (fun s => decide (toIxs s < 1 ∧ (len ≠ 0 ∨ toIxs s < 0))) = true :=
      List.any_eq_true.mpr ⟨0, hmem, by
        simp only [decide_eq_true_eq]
        exact ⟨by decide, Or.inl hlen⟩⟩
    simp only [hany, if_true]
  · intro hlen hnn
    unfold can_index_slice
    rw [hsc]
    dsimp only
    have hany : strides.any (fun s => decide (toIxs s < 1 ∧ (len ≠ 0 ∨ toIxs s < 0))) = false := by
      simp only [List.any_eq_false, decide_eq_true_eq, not_and]
      intro s hs _hlt h2
      rcases h2 with h2 | h2
      · exact h2 hlen
      · exact absurd h2 (not_lt.mpr (hnn s hs))
    simp only [hany, Bool.false_eq_true, if_false, if_pos hlen]

/-- Counterexample to C2 as stated: with shape (2^32, 2^32, 0) the
total size is 0 and a stride is negative as a signed value, yet
can_index_slice fails with OutOfBounds, not Unsupported, because
checked_size overflows before the stride check runs. -/
theorem can_index_slice_unsupported_counterexample :
    can_index_slice ([] : List Nat) [2 ^ 32, 2 ^ 32, 0] [usizeW - 1, 1, 1] =
      Except.error ErrorKind.OutOfBounds ∧
    toIxs (usizeW - 1) < 0 ∧
    ([2 ^ 32, 2 ^ 32, 0] : List Nat).prod = 0 ∧
    ErrorKind.OutOfBounds ≠ ErrorKind.Unsupported :=
  ⟨rfl, by decide, by decide, by decide⟩

/-- Witness for C2 (amended): at shape [2, 0] (checked size 0) a
negative stride gives the concrete Unsupported verdict via the
theorem. -/
theorem can_index_slice_unsupported_cases_witness :
    size_checked [2, 0] = some 0 ∧
    can_index_slice ([] : List Nat) [2, 0] [usizeW - 1, 3] =
      Except.error ErrorKind.Unsupported :=
  ⟨rfl,
    (can_index_slice_unsupported_cases ([] : List Nat) [2, 0] [usizeW - 1, 3] 0 rfl).1
      ⟨usizeW - 1, by decide, by decide⟩⟩

/-!  The overlap walk (claim C3).  -/

theorem trigAt_cons (dim strides : List Nat) (idx : Nat) (rest : List Nat) (p0 : Int) (j : Nat) :
    trigAt dim strides (idx :: rest) p0 (j + 1) ↔
      trigAt dim strides rest
        (stride_offset (dim.getD idx 0) (strides.getD idx 0)) j := by
  cases j with
  | zero => simp [trigAt, prevAt]
  | succ m => simp [trigAt, prevAt]

theorem overlap_go_iff (dim strides : List Nat) :
    ∀ (ord : List Nat) (p0 : Int),
      overlap_go dim strides ord p0 = true ↔
        ∃ k, k < ord.length ∧ trigAt dim strides ord p0 k := by
  intro ord
  induction ord with
  | nil => intro p0; simp [overlap_go]
  | cons idx rest ih =>
    intro p0
    by_cases h : dim.getD idx 0 ≠ 1 ∧ toIxs (strides.getD idx 0) < p0
    · simp only [overlap_go, if_pos h, true_iff]
      exact ⟨0, Nat.succ_pos _, by simpa [trigAt, prevAt] using h⟩
    · simp only [overlap_go, if_neg h]
      rw [ih (stride_offset (dim.getD idx 0) (strides.getD idx 0))]
      constructor
      · rintro ⟨k, hk, ht⟩
        exact ⟨k + 1, Nat.succ_lt_succ hk, (trigAt_cons dim strides idx rest p0 k).mpr ht⟩
      · rintro ⟨k, hk, ht⟩
        cases k with
        | zero =>
          exact absurd (by simpa [trigAt, prevAt] using ht) h
        | succ j =>
          exact ⟨j, Nat.lt_of_succ_lt_succ hk, (trigAt_cons dim strides idx rest p0 j).mp ht⟩

/-- Claim C3: dim_stride_overlap walks the axes in
fastest_varying_stride_order with prev_offset initialized to 1 and
reports overlap exactly when some axis of the walk has extent not 1
and signed stride below the prev_offset in force there (prev_offset
being replaced by stride_offset(extent, stride) after each axis), and
returns false when no axis triggers; in particular for shape (2,3,2)
it returns true for strides (5,2,1), false for (6,2,1) and true for
(6,0,1). -/
theorem dim_stride_overlap_iff :
    (∀ dim strides : List Nat,
      (dim_stride_overlap dim strides = true ↔
        ∃ k, k < (fastest_varying_stride_order strides).length ∧
          trigAt dim strides (fastest_varying_stride_order strides) 1 k)) ∧
    dim_stride_overlap [2, 3, 2] [5, 2, 1] = true ∧
    dim_stride_overlap [2, 3, 2] [6, 2, 1] = false ∧
    dim_stride_overlap [2, 3, 2] [6, 0, 1] = true := by
  refine ⟨?_, rfl, rfl, rfl⟩
  intro dim strides
  exact overlap_go_iff dim strides (fastest_varying_stride_order strides) 1

theorem abs_index_resolve {m : Nat} (v : Int) (hm : m < halfW)
    (hv1 : -(m : Int) ≤ v) (hv2 : v < (halfW : Int)) :
    abs_index (toIxs m) v = resolveIdx m v := by
  unfold abs_index resolveIdx
  rw [toIxs_of_lt hm]
  have hWh := usizeW_eq_two_halfW
  by_cases hv : v < 0
  · rw [if_pos hv, if_pos hv]
    have hmc : ((m : Nat) : Int) < (halfW : Int) := by exact_mod_cast hm
    exact usizeOfIsize_of_nonneg (by omega) (by omega)
  · rw [if_neg hv, if_neg hv]
    exact usizeOfIsize_of_nonneg (by omega) (by omega)

theorem absIx_eq_natAbs {z : Int} (h1 : -(halfW : Int) ≤ z) (h2 : z < (halfW : Int)) :
    absIx z = z.natAbs := by
  by_cases hz : |z| < (halfW : Int)
  · unfold absIx
    rw [wrapIsize_eq_self (by have := abs_nonneg z; omega) hz]
    rw [usizeOfIsize_of_nonneg (abs_nonneg z) (by rw [usizeW_eq_two_halfW]; omega)]
    rw [Int.abs_eq_natAbs]
    exact Int.toNat_ofNat _
  · have hzeq : z = -(halfW : Int) := by
      rcases le_or_lt 0 z with h | h
      · rw [abs_of_nonneg h] at hz; omega
      · rw [abs_of_neg h] at hz; omega
    subst hzeq
    rfl

theorem ceil_div_eq (a k : Nat) (hk : 0 < k) :
    a / k + (if 0 < a % k then 1 else 0) = (a + (k - 1)) / k := by
  rcases Nat.eq_zero_or_pos (a % k) with h0 | hpos
  · rw [h0, if_neg (by omega)]
    obtain ⟨q, rfl⟩ : k ∣ a := Nat.dvd_of_mod_eq_zero h0
    rw [Nat.mul_div_cancel_left q hk]
    rw [Nat.mul_add_div hk]
    rw [Nat.div_eq_of_lt (by omega)]
  · rw [if_pos hpos]
    have hmod := Nat.mod_lt a hk
    have hdm := Nat.div_add_mod a k
    have e1 : k * (a / k + 1) = k * (a / k) + k := by ring
    have key : a + (k - 1) = k * (a / k + 1) + (a % k - 1) := by rw [e1]; omega
    have hd0 : (a % k - 1) / k = 0 := Nat.div_eq_of_lt (by omega)
    rw [key, Nat.mul_add_div hk, hd0]

theorem sliceAxis_resolved (m sr : Nat) (start : Int) (stop : Option Int) (step : Int)
    (hm : m < halfW)
    (hstart : -(m : Int) ≤ start ∧ start < (halfW : Int))
    (hstop : ∀ e ∈ stop, -(m : Int) ≤ e ∧ e < (halfW : Int))
    (hstep : -(halfW : Int) ≤ step ∧ step < (halfW : Int)) :
    sliceAxis m sr ⟨start, stop, step⟩ =
      (if resolveIdx m start ≤ m ∧ max (resolveIdx m start) (resolveIdx m (stop.getD (m : Int))) ≤ m ∧ step ≠ 0 then
        some ((max (resolveIdx m start) (resolveIdx m (stop.getD (m : Int))) - resolveIdx m start) / step.natAbs +
            (if 0 < (max (resolveIdx m start) (resolveIdx m (stop.getD (m : Int))) - resolveIdx m start) % step.natAbs then 1 else 0),
          usizeOfIsize (wrapIsize (toIxs sr * step)),
          wrapIsize (stride_offset (resolveIdx m start) sr +
            (if step < 0 then
              stride_offset (wsub1 (max (resolveIdx m start) (resolveIdx m (stop.getD (m : Int))) - resolveIdx m start)) sr
            else 0)))
      else none) := by
  have hmi : toIxs m = (m : Int) := toIxs_of_lt hm
  have hb1 : abs_index (toIxs m) start = resolveIdx m start :=
    abs_index_resolve start hm hstart.1 hstart.2
  have he0 : -(m : Int) ≤ stop.getD (m : Int) ∧ stop.getD (m : Int) < (halfW : Int) := by
    cases stop with
    | none =>
      simp only [Option.getD_none]
      exact ⟨by omega, by exact_mod_cast hm⟩
    | some e => simpa using hstop e rfl
  have he1 : abs_index (toIxs m) (stop.getD (m : Int)) = resolveIdx m (stop.getD (m : Int)) :=
    abs_index_resolve _ hm he0.1 he0.2
  have habs : absIx step = step.natAbs := absIx_eq_natAbs hstep.1 hstep.2
  simp only [sliceAxis]
  rw [hmi] at hb1 he1
  rw [hmi, hb1, he1, habs]
  have hmax : (if resolveIdx m (stop.getD (m : Int)) < resolveIdx m start then resolveIdx m start
      else resolveIdx m (stop.getD (m : Int)))
      = max (resolveIdx m start) (resolveIdx m (stop.getD (m : Int))) := by
    split <;> omega
  rw [hmax]

theorem do_slices_single (m sr : Nat) (slc : Si) :
    do_slices [m] [sr] [slc] =
      (sliceAxis m sr slc).map (fun t => ([t.1], [t.2.1], wrapIsize (0 + t.2.2))) := by
  unfold do_slices
  have hlen : [slc].length = [m].length := rfl
  rw [if_pos hlen]
  cases h : sliceAxis m sr slc <;> simp [do_slices_go, h]

/-- Claim C5: for an axis of extent m with a descriptor of nonzero
step (machine-valid values, non-negative resolved bounds, no overflow
of the new stride), do_slices resolves a negative start or end as
m + value, defaults a missing end to m, clamps the resolved end up to
the resolved start, requires both resolved bounds at most m (panicking
otherwise, embedded as none), and produces the new extent
ceil((end - start) / abs step) together with a new stride whose signed
value is the original signed stride times the step. -/
theorem do_slices_axis_rules (m sr : Nat) (start : Int) (stop : Option Int) (step : Int)
    (hm : m < halfW) (_hsr : sr < usizeW)
    (hstart : -(m : Int) ≤ start ∧ start < (halfW : Int))
    (hstop : ∀ e ∈ stop, -(m : Int) ≤ e ∧ e < (halfW : Int))
    (hstep0 : step ≠ 0)
    (hstep : -(halfW : Int) ≤ step ∧ step < (halfW : Int))
    (hmul : -(halfW : Int) ≤ toIxs sr * step ∧ toIxs sr * step < (halfW : Int)) :
    (resolveIdx m start ≤ m →
      max (resolveIdx m start) (resolveIdx m (stop.getD (m : Int))) ≤ m →
      ∃ off s2,
        do_slices [m] [sr] [⟨start, stop, step⟩] =
          some ([(max (resolveIdx m start) (resolveIdx m (stop.getD (m : Int)))
                    - resolveIdx m start + (step.natAbs - 1)) / step.natAbs],
                [s2], off) ∧
        toIxs s2 = toIxs sr * step) ∧
    (¬(resolveIdx m start ≤ m ∧
        max (resolveIdx m start) (resolveIdx m (stop.getD (m : Int))) ≤ m) →
      do_slices [m] [sr] [⟨start, stop, step⟩] = none) := by
  rw [do_slices_single, sliceAxis_resolved m sr start stop step hm hstart hstop hstep]
  constructor
  · intro h1 h2
    rw [if_pos ⟨h1, h2, hstep0⟩]
    rw [← ceil_div_eq _ _ (Int.natAbs_pos.mpr hstep0)]
    refine ⟨_, _, rfl, ?_⟩
    rw [wrapIsize_eq_self hmul.1 hmul.2, toIxs_usizeOfIsize hmul.1 hmul.2]
  · intro h
    rw [if_neg (fun hc => h ⟨hc.1, hc.2.1⟩)]
    rfl

theorem wrap_of_abs_lt {x : Int} (h : |x| < (halfW : Int)) : wrapIsize x = x := by
  rw [abs_lt] at h
  exact wrapIsize_eq_self (le_of_lt h.1) h.2

theorem wsub1_zero : wsub1 0 = usizeW - 1 := by
  unfold wsub1
  have h1 : 1 ≤ usizeW := by norm_num [usizeW]
  rw [Nat.zero_add, Nat.mod_eq_of_lt (by omega)]

theorem toIxs_usizeW_sub_one : toIxs (usizeW - 1) = -1 := by decide

theorem boundSum_nonneg : ∀ (ds ss : List Nat), 0 ≤ boundSum ds ss := by
  intro ds
  induction ds with
  | nil => intro ss; cases ss <;> simp [boundSum]
  | cons d dt ih =>
    intro ss
    cases ss with
    | nil => simp [boundSum]
    | cons s st =>
      have h1 : (0 : Int) ≤ ((d : Int) + 1) * |toIxs s| := by
        apply mul_nonneg
        · have : (0 : Int) ≤ (d : Int) := Int.ofNat_nonneg d
          omega
        · exact abs_nonneg _
      have h2 := ih st
      simp only [boundSum]
      omega

theorem sliceAxis_contrib {m sr : Nat} {slc : Si} {d2 s2 : Nat} {c : Int}
    (hOK : AxOK m sr slc)
    (hsmall : ((m : Int) + 1) * |toIxs sr| < (halfW : Int))
    (h : sliceAxis m sr slc = some (d2, s2, c)) :
    c = contrib m sr slc ∧ |c| ≤ ((m : Int) + 1) * |toIxs sr| := by
  obtain ⟨start, stop, step⟩ := slc
  obtain ⟨hm, hsr, hstart, hstop, hstep0, hstep, _hmul⟩ := hOK
  rw [sliceAxis_resolved m sr start stop step hm hstart hstop hstep] at h
  by_cases hg : resolveIdx m start ≤ m ∧
      max (resolveIdx m start) (resolveIdx m (stop.getD (m : Int))) ≤ m ∧ step ≠ 0
  swap
  · rw [if_neg hg] at h
    exact absurd h (by simp)
  rw [if_pos hg] at h
  obtain ⟨h1, h2, -⟩ := hg
  simp only [Option.some.injEq, Prod.mk.injEq] at h
  obtain ⟨-, -, hc⟩ := h
  set bs := resolveIdx m start with hbs
  set es := resolveIdx m (stop.getD (m : Int)) with hes
  set σ := toIxs sr with hσ
  have hσabs : (0 : Int) ≤ |σ| := abs_nonneg σ
  have hσlt : |σ| < (halfW : Int) := by
    have hle : (1 : Int) * |σ| ≤ ((m : Int) + 1) * |σ| := by
      apply mul_le_mul_of_nonneg_right _ hσabs
      have : (0 : Int) ≤ (m : Int) := Int.ofNat_nonneg m
      omega
    rw [one_mul] at hle
    exact lt_of_le_of_lt hle hsmall
  have hbsm : (bs : Int) ≤ (m : Int) := by exact_mod_cast h1
  have hescm : ((max bs es : Nat) : Int) ≤ (m : Int) := by exact_mod_cast h2
  have hbs_esc : bs ≤ max bs es := le_max_left _ _
  have habs_le : ∀ a : Int, |a| ≤ (m : Int) + 1 → |a * σ| ≤ ((m : Int) + 1) * |σ| := by
    intro a ha
    rw [abs_mul]
    exact mul_le_mul_of_nonneg_right ha hσabs
  have hso_bs : stride_offset bs sr = (bs : Int) * σ := by
    unfold stride_offset
    rw [toIxs_of_lt (lt_of_le_of_lt h1 hm), ← hσ]
    apply wrap_of_abs_lt
    apply lt_of_le_of_lt _ hsmall
    apply habs_le
    rw [abs_of_nonneg (Int.ofNat_nonneg bs)]
    omega
  have hcontrib_val : contrib m sr ⟨start, stop, step⟩ =
      (bs : Int) * σ + (if step < 0 then ((max bs es : Nat) : Int) - (bs : Int) - 1 else 0) * σ := by
    unfold contrib
    simp only [← hbs, ← hes, ← hσ]
    by_cases hneg : step < 0
    · rw [if_pos hneg, if_pos hneg]
    · rw [if_neg hneg, if_neg hneg]
      ring
  by_cases hneg : step < 0
  · rw [if_pos hneg] at hc
    by_cases hm2 : max bs es - bs = 0
    · have hesc_eq : max bs es = bs := by omega
      rw [hm2, wsub1_zero] at hc
      have hsoW : stride_offset (usizeW - 1) sr = -σ := by
        unfold stride_offset
        rw [toIxs_usizeW_sub_one, ← hσ, neg_one_mul]
        apply wrap_of_abs_lt
        rw [abs_neg]
        exact hσlt
      rw [hsoW, hso_bs] at hc
      have hsum : (bs : Int) * σ + -σ = ((bs : Int) - 1) * σ := by ring
      rw [hsum] at hc
      have hbnd : |((bs : Int) - 1) * σ| ≤ ((m : Int) + 1) * |σ| := by
        apply habs_le
        rw [abs_le]
        omega
      have hcv : c = ((bs : Int) - 1) * σ := by
        rw [← hc]
        exact wrap_of_abs_lt (lt_of_le_of_lt hbnd hsmall)
      constructor
      · rw [hcv, hcontrib_val, if_pos hneg, hesc_eq]
        ring
      · rw [hcv]
        exact hbnd
    · have hm2' : 1 ≤ max bs es - bs := by omega
      have hm2W : max bs es - bs ≤ usizeW := by
        have : (halfW : Nat) ≤ usizeW := by norm_num [halfW, usizeW]
        omega
      rw [wsub1_eq hm2' hm2W, hso_bs] at hc
      have hso_m2 : stride_offset (max bs es - bs - 1) sr =
          ((max bs es - bs - 1 : Nat) : Int) * σ := by
        unfold stride_offset
        rw [toIxs_of_lt (by omega : max bs es - bs - 1 < halfW), ← hσ]
        apply wrap_of_abs_lt
        apply lt_of_le_of_lt _ hsmall
        apply habs_le
        rw [abs_of_nonneg (Int.ofNat_nonneg _)]
        omega
      rw [hso_m2] at hc
      have hcast : ((max bs es - bs - 1 : Nat) : Int) =
          ((max bs es : Nat) : Int) - (bs : Int) - 1 := by omega
      rw [hcast] at hc
      have hsum : (bs : Int) * σ + (((max bs es : Nat) : Int) - (bs : Int) - 1) * σ =
          (((max bs es : Nat) : Int) - 1) * σ := by ring
      rw [hsum] at hc
      have hbnd : |(((max bs es : Nat) : Int) - 1) * σ| ≤ ((m : Int) + 1) * |σ| := by
        apply habs_le
        rw [abs_le]
        omega
      have hcv : c = (((max bs es : Nat) : Int) - 1) * σ := by
        rw [← hc]
        exact wrap_of_abs_lt (lt_of_le_of_lt hbnd hsmall)
      constructor
      · rw [hcv, hcontrib_val, if_pos hneg]
        ring
      · rw [hcv]
        exact hbnd
  · rw [if_neg hneg] at hc
    rw [hso_bs, add_zero] at hc
    have hbnd : |(bs : Int) * σ| ≤ ((m : Int) + 1) * |σ| := by
      apply habs_le
      rw [abs_of_nonneg (Int.ofNat_nonneg bs)]
      omega
    have hcv : c = (bs : Int) * σ := by
      rw [← hc]
      exact wrap_of_abs_lt (lt_of_le_of_lt hbnd hsmall)
    constructor
    · rw [hcv, hcontrib_val, if_neg hneg, zero_mul, add_zero]
    · rw [hcv]
      exact hbnd

theorem do_slices_go_offset :
    ∀ (ds ss : List Nat) (sls : List Si) (acc : Int) (nd ns : List Nat) (off : Int),
      ds.length = ss.length → ds.length = sls.length →
      (∀ k, k < ds.length →
        AxOK (ds.getD k 0) (ss.getD k 0) (sls.getD k ⟨0, none, 1⟩)) →
      |acc| + boundSum ds ss < (halfW : Int) →
      do_slices_go ds ss sls acc = some (nd, ns, off) →
      off = acc + (contribs ds ss sls).sum := by
  intro ds
  induction ds with
  | nil =>
    intro ss sls acc nd ns off _hl1 hl2 _hax _hb h
    have hsl : sls = [] := List.length_eq_zero.mp hl2.symm
    subst hsl
    simp only [do_slices_go, Option.some.injEq, Prod.mk.injEq] at h
    simp [contribs, ← h.2.2]
  | cons d dt ih =>
    intro ss sls acc nd ns off hl1 hl2 hax hb h
    cases ss with
    | nil => exact absurd hl1 (by simp)
    | cons s st =>
      cases sls with
      | nil => exact absurd hl2 (by simp)
      | cons sl slt =>
        have hax0 : AxOK d s sl := by
          have := hax 0 (Nat.succ_pos _)
          simpa using this
        have hbpos := boundSum_nonneg dt st
        have haccpos : (0 : Int) ≤ |acc| := abs_nonneg acc
        have hsmall0 : ((d : Int) + 1) * |toIxs s| < (halfW : Int) := by
          simp only [boundSum] at hb
          omega
        simp only [do_slices_go] at h
        cases hsl : sliceAxis d s sl with
        | none => rw [hsl] at h; exact absurd h (by simp)
        | some t =>
          obtain ⟨t1, t2, c⟩ := t
          rw [hsl] at h
          dsimp only at h
          cases hrec : do_slices_go dt st slt (wrapIsize (acc + c)) with
          | none => rw [hrec] at h; exact absurd h (by simp)
          | some u =>
            obtain ⟨u1, u2, u3⟩ := u
            rw [hrec] at h
            simp only [Option.map_some', Option.some.injEq, Prod.mk.injEq] at h
            obtain ⟨-, -, hoff⟩ := h
            obtain ⟨hcval, hcbnd⟩ := sliceAxis_contrib hax0 hsmall0 hsl
            have hwrap : wrapIsize (acc + c) = acc + c := by
              apply wrap_of_abs_lt
              have h1 := abs_add acc c
              have h2 : |acc| + |c| < (halfW : Int) := by
                simp only [boundSum] at hb
                omega
              omega
            rw [hwrap] at hrec
            have hihb : |acc + c| + boundSum dt st < (halfW : Int) := by
              have h1 := abs_add acc c
              simp only [boundSum] at hb
              omega
            have := ih st slt (acc + c) u1 u2 u3 (by simpa using hl1)
              (by simpa using hl2)
              (fun k hk => by
                have := hax (k + 1) (by simpa using Nat.succ_lt_succ hk)
                simpa using this)
              hihb hrec
            rw [← hoff, this, hcval]
            simp only [contribs, List.sum_cons]
            ring

/-- Claim C4 (amended): on success, the pointer displacement
accumulated by do_slices is the sum over the sliced axes of
start * original_stride plus, when the descriptor's step is negative,
(end - start - 1) * original_stride, where start and end are the
resolved and clamped bounds of that axis (machine-valid descriptors
whose total magnitude keeps the accumulation inside the isize
range). -/
theorem do_slices_offset_formula (dims strides : List Nat) (slices : List Si)
    (nd ns : List Nat) (off : Int)
    (hl1 : dims.length = strides.length) (hl2 : dims.length = slices.length)
    (hax : ∀ k, k < dims.length →
      AxOK (dims.getD k 0) (strides.getD k 0) (slices.getD k ⟨0, none, 1⟩))
    (hb : boundSum dims strides < (halfW : Int))
    (h : do_slices dims strides slices = some (nd, ns, off)) :
    off = (contribs dims strides slices).sum := by
  unfold do_slices at h
  rw [if_pos hl2.symm] at h
  have := do_slices_go_offset dims strides slices 0 nd ns off hl1 hl2 hax
    (by simpa using hb) h
  simpa using this

/-- Witness for C4 (amended): slicing extent 6, stride 1 with the
descriptor (0, missing end, step -2) accumulates displacement 5, which
the theorem equates with the amended per-axis formula
0 * 1 + (6 - 0 - 1) * 1. -/
theorem do_slices_offset_formula_witness :
    (5 : Int) = (contribs [6] [1] [⟨0, none, -2⟩]).sum :=
  do_slices_offset_formula [6] [1] [⟨0, none, -2⟩] [3] [usizeW - 2] 5 rfl rfl
    (by
      intro k hk
      have hk0 : k = 0 := by
        simp only [List.length_singleton] at hk
        omega
      subst hk0
      refine ⟨by decide, by decide, ⟨by decide, by decide⟩, ?_, by decide,
        ⟨by decide, by decide⟩, ⟨by decide, by decide⟩⟩
      intro e he
      simp at he)
    (by decide) rfl

theorem sliceAxis_id (m sr : Nat) (hm : m < halfW) (hsr : sr < usizeW) :
    sliceAxis m sr ⟨0, none, 1⟩ = some (m, sr, 0) := by
  rw [sliceAxis_resolved m sr 0 none 1 hm ⟨by omega, by norm_num [halfW]⟩
    (by intro e he; simp at he) ⟨by norm_num [halfW], by norm_num [halfW]⟩]
  have hr0 : resolveIdx m 0 = 0 := rfl
  have hrm : resolveIdx m ((none : Option Int).getD (m : Int)) = m := by
    unfold resolveIdx
    rw [Option.getD_none, if_neg (by omega)]
    exact Int.toNat_ofNat m
  rw [hr0, hrm]
  rw [if_pos ⟨Nat.zero_le m, by simp, one_ne_zero⟩]
  have hwa : wrapIsize (toIxs sr * 1) = toIxs sr := by
    rw [mul_one]
    exact wrapIsize_eq_self (toIxs_bounds hsr).1 (toIxs_bounds hsr).2
  have hso0 : stride_offset 0 sr = 0 := by
    unfold stride_offset
    rw [toIxs_of_lt (by norm_num [halfW]), Int.ofNat_zero, zero_mul]
    exact wrapIsize_eq_self (by norm_num [halfW]) (by norm_num [halfW])
  rw [hwa, usizeOfIsize_toIxs hsr, hso0]
  have hifneg : ¬ ((1 : Int) < 0) := by norm_num
  rw [if_neg hifneg, add_zero]
  have hw0 : wrapIsize 0 = 0 :=
    wrapIsize_eq_self (by norm_num [halfW]) (by norm_num [halfW])
  rw [hw0]
  simp only [Nat.max_eq_right (Nat.zero_le m), Nat.sub_zero, Nat.div_one,
    Int.natAbs_one, Nat.mod_one, lt_irrefl, if_false, add_zero]

theorem do_slices_go_id :
    ∀ (ds ss : List Nat), (∀ m ∈ ds, m < halfW) → (∀ s ∈ ss, s < usizeW) →
      ds.length = ss.length →
      do_slices_go ds ss (ds.map (fun _ => ⟨0, none, 1⟩)) 0 = some (ds, ss, 0) := by
  intro ds
  induction ds with
  | nil =>
    intro ss hm hs hl
    have : ss = [] := List.length_eq_zero.mp hl.symm
    subst this
    rfl
  | cons d dt ih =>
    intro ss hm hs hl
    cases ss with
    | nil => exact absurd hl (by simp)
    | cons s st =>
      simp only [List.map_cons, do_slices_go]
      rw [sliceAxis_id d s (hm d (by simp)) (hs s (by simp))]
      dsimp only
      have hw0 : wrapIsize (0 + 0) = 0 := by
        rw [add_zero]
        exact wrapIsize_eq_self (by norm_num [halfW]) (by norm_num [halfW])
      rw [hw0, ih st (fun m hmm => hm m (by simp [hmm])) (fun x hx => hs x (by simp [hx]))
        (by simpa using hl)]
      rfl

/-- Claim C6 (amended): for every shape whose extents fit the signed
range (below 2^63) and machine-word strides, applying do_slices with
the descriptor (start 0, end unspecified, step 1) on every axis leaves
the shape and the strides unchanged and returns displacement zero. -/
theorem do_slices_identity (dims strides : List Nat)
    (hm : ∀ m ∈ dims, m < halfW) (hs : ∀ s ∈ strides, s < usizeW)
    (hlen : dims.length = strides.length) :
    do_slices dims strides (dims.map (fun _ => ⟨0, none, 1⟩)) =
      some (dims, strides, 0) := by
  unfold do_slices
  rw [if_pos (by simp)]
  exact do_slices_go_id dims strides hm hs hlen


/-- Counterexample to C4 as stated: slicing extent 6, stride 1 with
descriptor (0, missing end, step -2) yields new extent 3 and
displacement 5, but the claimed formula start * stride +
(new extent - 1) * stride gives 0 + 2. -/
theorem do_slices_offset_counterexample :
    do_slices [6] [1] [⟨0, none, -2⟩] = some ([3], [usizeW - 2], 5) ∧
    (5 : Int) ≠ 0 * toIxs 1 + ((3 : Int) - 1) * toIxs 1 :=
  ⟨rfl, by decide⟩

/-- Witness for C5: extent 6, stride 2, descriptor (-5, end -1,
step 2) resolves to start 1 and end 5, giving new extent 2 and a new
stride of signed value 4. -/
theorem do_slices_axis_rules_witness :
    ∃ off s2, do_slices [6] [2] [⟨-5, some (-1), 2⟩] = some ([2], [s2], off) ∧
      toIxs s2 = toIxs 2 * 2 := by
  obtain ⟨off, s2, h1, h2⟩ :=
    (do_slices_axis_rules 6 2 (-5) (some (-1)) 2 (by decide) (by decide)
      ⟨by decide, by decide⟩
      (by
        intro e he
        simp only [Option.mem_def, Option.some.injEq] at he
        subst he
        exact ⟨by decide, by decide⟩)
      (by decide) ⟨by decide, by decide⟩ ⟨by decide, by decide⟩).1
    (by decide) (by decide)
  exact ⟨off, s2, by rw [h1]; rfl, h2⟩

/-- Counterexample to C6 as stated: at the machine-representable
extent 2^63 the signed reinterpretation of the extent is negative, the
missing end resolves to 0 instead of the extent, and the full-range
step-1 slice shrinks the shape to [0]. -/
theorem do_slices_identity_counterexample :
    do_slices [2 ^ 63] [1] [⟨0, none, 1⟩] = some ([0], [1], 0) ∧
    ([0] : List Nat) ≠ [2 ^ 63] :=
  ⟨rfl, by decide⟩

/-- Witness for C6 (amended): the full-range step-1 slice of shape
[2, 3] with strides [3, 1] returns them unchanged with displacement
zero. -/
theorem do_slices_identity_witness :
    do_slices [2, 3] [3, 1] (([2, 3] : List Nat).map (fun _ => ⟨0, none, 1⟩)) =
      some ([2, 3], [3, 1], 0) :=
  do_slices_identity [2, 3] [3, 1] (by decide) (by decide) rfl

theorem valRev_lt_prod : ∀ {ds is : List Nat},
    List.Forall₂ (fun d i => i < d) ds is → valRev ds is < ds.prod := by
  intro ds is h
  induction h with
  | nil => simp [valRev]
  | @cons d i ds' is' hdi _h ih =>
    simp only [valRev, List.prod_cons]
    have h2 : d * (valRev ds' is' + 1) ≤ d * ds'.prod := Nat.mul_le_mul_left d ih
    have h3 : d * (valRev ds' is' + 1) = d + d * valRev ds' is' := by ring
    omega

theorem digitsRev_length : ∀ (ds : List Nat) (k : Nat), (digitsRev ds k).length = ds.length := by
  intro ds
  induction ds with
  | nil => intro k; rfl
  | cons d dt ih => intro k; simp [digitsRev, ih]

theorem digitsRev_inb : ∀ (ds : List Nat) (k : Nat), (∀ d ∈ ds, 0 < d) →
    List.Forall₂ (fun d i => i < d) ds (digitsRev ds k) := by
  intro ds
  induction ds with
  | nil => intro k _; exact List.Forall₂.nil
  | cons d dt ih =>
    intro k hpos
    exact List.Forall₂.cons (Nat.mod_lt k (hpos d (by simp)))
      (ih (k / d) (fun x hx => hpos x (by simp [hx])))

theorem valRev_digitsRev : ∀ (ds : List Nat) (k : Nat), (∀ d ∈ ds, 0 < d) →
    k < ds.prod → valRev ds (digitsRev ds k) = k := by
  intro ds
  induction ds with
  | nil => intro k _ hk; simp at hk; simp [digitsRev, valRev, hk]
  | cons d dt ih =>
    intro k hpos hk
    have hd : 0 < d := hpos d (by simp)
    simp only [digitsRev, valRev]
    have hdiv : k / d < dt.prod := by
      rw [Nat.div_lt_iff_lt_mul hd]
      calc k < (d :: dt).prod := hk
        _ = dt.prod * d := by rw [List.prod_cons]; ring
    rw [ih (k / d) (fun x hx => hpos x (by simp [hx])) hdiv]
    exact Nat.mod_add_div k d

theorem digitsRev_valRev : ∀ {ds is : List Nat},
    List.Forall₂ (fun d i => i < d) ds is → digitsRev ds (valRev ds is) = is := by
  intro ds is h
  induction h with
  | nil => rfl
  | @cons d i ds' is' hdi _h ih =>
    simp only [digitsRev, valRev]
    have h1 : (i + d * valRev ds' is') % d = i := by
      rw [Nat.add_mul_mod_self_left]
      exact Nat.mod_eq_of_lt hdi
    have h2 : (i + d * valRev ds' is') / d = valRev ds' is' := by
      rw [Nat.add_mul_div_left i _ (by omega), Nat.div_eq_of_lt hdi, Nat.zero_add]
    rw [h1, h2, ih]

theorem digitsRev_zero : ∀ (ds : List Nat), digitsRev ds 0 = ds.map (fun _ => 0) := by
  intro ds
  induction ds with
  | nil => rfl
  | cons d dt ih => simp [digitsRev, ih]

theorem next_for_go_spec : ∀ {ds is : List Nat},
    List.Forall₂ (fun d i => i < d) ds is → (∀ d ∈ ds, d < usizeW) →
    next_for_go ds is =
      (if valRev ds is + 1 < ds.prod then some (digitsRev ds (valRev ds is + 1))
       else none) := by
  intro ds is h
  induction h with
  | nil =>
    intro _
    simp [next_for_go, valRev]
  | @cons d i ds' is' hdi h ih =>
    intro hW
    have hdW : d < usizeW := hW d (by simp)
    have hi2 : (i + 1) % usizeW = i + 1 := Nat.mod_eq_of_lt (by omega)
    have hvR := valRev_lt_prod h
    have hdpos : 0 < d := by omega
    simp only [next_for_go, hi2]
    by_cases hcarry : i + 1 = d
    · rw [if_pos hcarry]
      rw [ih (fun x hx => hW x (by simp [hx]))]
      have hval : valRev (d :: ds') (i :: is') + 1 = d * (valRev ds' is' + 1) := by
        simp only [valRev]
        have h3 : d * (valRev ds' is' + 1) = d + d * valRev ds' is' := by ring
        omega
      have hcond : (valRev (d :: ds') (i :: is') + 1 < (d :: ds').prod) ↔
          (valRev ds' is' + 1 < ds'.prod) := by
        rw [hval, List.prod_cons]
        exact Nat.mul_lt_mul_left hdpos
      by_cases hc : valRev ds' is' + 1 < ds'.prod
      · rw [if_pos hc, if_pos (hcond.mpr hc)]
        simp only [Option.map_some', Option.some.injEq]
        rw [hval]
        simp only [digitsRev]
        rw [Nat.mul_mod_right, Nat.mul_div_cancel_left _ hdpos]
      · rw [if_neg hc, if_neg (fun hx => hc (hcond.mp hx))]
        rfl
    · rw [if_neg hcarry]
      have hi1d : i + 1 < d := by omega
      have hcond : valRev (d :: ds') (i :: is') + 1 < (d :: ds').prod := by
        simp only [valRev, List.prod_cons]
        have h2 : d * (valRev ds' is' + 1) ≤ d * ds'.prod := Nat.mul_le_mul_left d hvR
        have h3 : d * (valRev ds' is' + 1) = d + d * valRev ds' is' := by ring
        omega
      rw [if_pos hcond]
      simp only [valRev, digitsRev, Option.some.injEq]
      have h1 : (i + d * valRev ds' is' + 1) % d = i + 1 := by
        have : i + d * valRev ds' is' + 1 = (i + 1) + d * valRev ds' is' := by ring
        rw [this, Nat.add_mul_mod_self_left]
        exact Nat.mod_eq_of_lt hi1d
      have h2 : (i + d * valRev ds' is' + 1) / d = valRev ds' is' := by
        have : i + d * valRev ds' is' + 1 = (i + 1) + d * valRev ds' is' := by ring
        rw [this, Nat.add_mul_div_left _ _ hdpos, Nat.div_eq_of_lt hi1d, Nat.zero_add]
      rw [h1, h2, digitsRev_valRev h]

theorem valRev_append : ∀ (ds1 is1 : List Nat), ds1.length = is1.length →
    ∀ (ds2 is2 : List Nat),
      valRev (ds1 ++ ds2) (is1 ++ is2) = valRev ds1 is1 + ds1.prod * valRev ds2 is2 := by
  intro ds1
  induction ds1 with
  | nil =>
    intro is1 hl ds2 is2
    have : is1 = [] := List.length_eq_zero.mp hl.symm
    subst this
    simp [valRev]
  | cons d dt ih =>
    intro is1 hl ds2 is2
    cases is1 with
    | nil => exact absurd hl (by simp)
    | cons i it =>
      simp only [List.cons_append, valRev, List.prod_cons, List.append_eq]
      rw [ih it (by simpa using hl) ds2 is2]
      ring

theorem valFwd_eq_valRev_reverse : ∀ (S ix : List Nat), S.length = ix.length →
    valFwd S ix = valRev S.reverse ix.reverse := by
  intro S
  induction S with
  | nil =>
    intro ix hl
    have : ix = [] := List.length_eq_zero.mp hl.symm
    subst this
    rfl
  | cons d dt ih =>
    intro ix hl
    cases ix with
    | nil => exact absurd hl (by simp)
    | cons i it =>
      simp only [valFwd, List.reverse_cons]
      rw [valRev_append dt.reverse it.reverse (by simp; simpa using hl)]
      rw [← ih it (by simpa using hl)]
      simp only [valRev, List.prod_reverse]
      ring

theorem valFwd_lt_prod : ∀ {S ix : List Nat},
    List.Forall₂ (fun d i => i < d) S ix → valFwd S ix < S.prod := by
  intro S ix h
  induction h with
  | nil => simp [valFwd]
  | @cons d i S' ix' hdi h ih =>
    simp only [valFwd, List.prod_cons]
    have h2 : (i + 1) * S'.prod ≤ d * S'.prod :=
      Nat.mul_le_mul_right S'.prod (by omega)
    have h3 : (i + 1) * S'.prod = i * S'.prod + S'.prod := by ring
    omega

theorem fromIdx_inb (S : List Nat) (k : Nat) (hpos : ∀ d ∈ S, 0 < d) :
    List.Forall₂ (fun d i => i < d) S (fromIdx S k) := by
  unfold fromIdx
  rw [← List.reverse_reverse S]
  rw [List.forall₂_reverse_iff]
  rw [List.reverse_reverse S]
  exact digitsRev_inb S.reverse k (fun d hd => hpos d (List.mem_reverse.mp hd))

theorem valFwd_fromIdx (S : List Nat) (k : Nat) (hpos : ∀ d ∈ S, 0 < d)
    (hk : k < S.prod) :
    valFwd S (fromIdx S k) = k := by
  unfold fromIdx
  rw [valFwd_eq_valRev_reverse _ _ (by rw [List.length_reverse, digitsRev_length, List.length_reverse])]
  rw [List.reverse_reverse]
  exact valRev_digitsRev S.reverse k (fun d hd => hpos d (List.mem_reverse.mp hd))
    (by rwa [List.prod_reverse])

theorem next_for_spec {S ix : List Nat}
    (h : List.Forall₂ (fun d i => i < d) S ix) (hW : ∀ d ∈ S, d < usizeW) :
    next_for S ix =
      (if valFwd S ix + 1 < S.prod then some (fromIdx S (valFwd S ix + 1)) else none) := by
  unfold next_for
  rw [next_for_go_spec (List.forall₂_reverse_iff.mpr h)
    (fun d hd => hW d (List.mem_reverse.mp hd))]
  rw [← valFwd_eq_valRev_reverse S ix h.length_eq, List.prod_reverse]
  by_cases hc : valFwd S ix + 1 < S.prod
  · rw [if_pos hc, if_pos hc]
    rfl
  · rw [if_neg hc, if_neg hc]
    rfl

theorem first_index_of_pos {S : List Nat} (hpos : ∀ d ∈ S, 0 < d) :
    first_index S = some (S.map (fun _ => 0)) := by
  unfold first_index
  rw [if_neg]
  simp only [List.any_eq_true, beq_iff_eq, not_exists]
  intro x
  rintro ⟨hx, hx0⟩
  exact absurd hx0 (by have := hpos x hx; omega)

theorem fromIdx_zero (S : List Nat) : fromIdx S 0 = S.map (fun _ => 0) := by
  unfold fromIdx
  rw [digitsRev_zero, List.map_reverse, List.reverse_reverse]

theorem enum_eq_fromIdx {S : List Nat} (hpos : ∀ d ∈ S, 0 < d)
    (hW : ∀ d ∈ S, d < usizeW) :
    ∀ k, k < S.prod → enum S k = some (fromIdx S k) := by
  intro k
  induction k with
  | zero =>
    intro _
    rw [fromIdx_zero]
    exact first_index_of_pos hpos
  | succ k ih =>
    intro hk
    have hk' : k < S.prod := by omega
    simp only [enum, ih hk', Option.some_bind]
    rw [next_for_spec (fromIdx_inb S k hpos) hW]
    rw [valFwd_fromIdx S k hpos hk']
    rw [if_pos hk]

theorem enum_prod_none {S : List Nat} (hpos : ∀ d ∈ S, 0 < d)
    (hW : ∀ d ∈ S, d < usizeW) :
    enum S S.prod = none := by
  have hp : 0 < S.prod := List.prod_pos hpos
  obtain ⟨p, hp'⟩ : ∃ p, S.prod = p + 1 := ⟨S.prod - 1, by omega⟩
  rw [hp']
  have hplt : p < S.prod := by omega
  simp only [enum, enum_eq_fromIdx hpos hW p hplt, Option.some_bind]
  rw [next_for_spec (fromIdx_inb S p hpos) hW]
  rw [valFwd_fromIdx S p hpos hplt]
  rw [if_neg (by omega)]

theorem enum_none_ge {S : List Nat} {k : Nat} (h : enum S k = none) :
    ∀ j, k ≤ j → enum S j = none := by
  intro j hj
  induction j with
  | zero =>
    have : k = 0 := by omega
    subst this
    exact h
  | succ j ih =>
    by_cases hkj : k ≤ j
    · simp only [enum, ih hkj, Option.none_bind]
    · have : k = j + 1 := by omega
      subst this
      exact h

theorem size_foldl_zero_acc : ∀ (S : List Nat),
    S.foldl (fun s a => (s * a) % usizeW) 0 = 0 := by
  intro S
  induction S with
  | nil => rfl
  | cons d dt ih =>
    simp only [List.foldl_cons, Nat.zero_mul, Nat.zero_mod]
    exact ih

theorem size_foldl_zero_mem : ∀ (S : List Nat) (acc : Nat), (0 : Nat) ∈ S →
    S.foldl (fun s a => (s * a) % usizeW) acc = 0 := by
  intro S
  induction S with
  | nil => intro acc h; simp at h
  | cons d dt ih =>
    intro acc h
    simp only [List.foldl_cons]
    rcases List.mem_cons.mp h with h0 | h0
    · rw [← h0, Nat.mul_zero, Nat.zero_mod]
      exact size_foldl_zero_acc dt
    · exact ih _ h0

theorem size_foldl_eq : ∀ (S : List Nat) (acc : Nat), acc * S.prod < usizeW →
    S.foldl (fun s a => (s * a) % usizeW) acc = acc * S.prod := by
  intro S
  induction S with
  | nil =>
    intro acc h
    simp [List.foldl_nil]
  | cons d dt ih =>
    intro acc h
    rw [List.prod_cons] at h
    simp only [List.foldl_cons]
    by_cases hz : dt.prod = 0
    · have hmem : (0 : Nat) ∈ dt := List.prod_eq_zero_iff.mp hz
      rw [size_foldl_zero_mem dt _ hmem]
      simp [List.prod_cons, hz]
    · have hp1 : 1 ≤ dt.prod := Nat.pos_of_ne_zero hz
      have heq : acc * d * dt.prod = acc * (d * dt.prod) := by ring
      have hlt : acc * d * dt.prod < usizeW := by omega
      have hle : acc * d ≤ acc * d * dt.prod := by
        calc acc * d = acc * d * 1 := by ring
          _ ≤ acc * d * dt.prod := Nat.mul_le_mul_left _ hp1
      have hmod : (acc * d) % usizeW = acc * d := Nat.mod_eq_of_lt (by omega)
      rw [hmod, ih (acc * d) hlt, List.prod_cons]
      ring

theorem size_eq_prod {S : List Nat} (h : S.prod < usizeW) : size S = S.prod := by
  unfold size
  rw [size_foldl_eq S 1 (by omega)]
  ring

theorem lex_iff_valFwd : ∀ {S a b : List Nat},
    List.Forall₂ (fun d i => i < d) S a → List.Forall₂ (fun d i => i < d) S b →
    (List.Lex (· < ·) a b ↔ valFwd S a < valFwd S b) := by
  intro S
  induction S with
  | nil =>
    intro a b ha hb
    rw [List.forall₂_nil_left_iff] at ha hb
    subst ha; subst hb
    constructor
    · intro h; cases h
    · intro h; simp [valFwd] at h
  | cons d S' ih =>
    intro a b ha hb
    rcases List.forall₂_cons_left_iff.mp ha with ⟨x, a', hxd, ha', rfl⟩
    rcases List.forall₂_cons_left_iff.mp hb with ⟨y, b', hyd, hb', rfl⟩
    have hva := valFwd_lt_prod ha'
    have hvb := valFwd_lt_prod hb'
    simp only [valFwd]
    rcases Nat.lt_trichotomy x y with hxy | hxy | hxy
    · constructor
      · intro _
        have h1 : (x + 1) * S'.prod ≤ y * S'.prod := Nat.mul_le_mul_right _ (by omega)
        have h2 : (x + 1) * S'.prod = x * S'.prod + S'.prod := by ring
        omega
      · intro _
        exact List.Lex.rel hxy
    · subst hxy
      constructor
      · intro h
        cases h with
        | cons h' => exact Nat.add_lt_add_left ((ih ha' hb').mp h') _
        | rel h' => exact absurd h' (lt_irrefl x)
      · intro h
        have h' : valFwd S' a' < valFwd S' b' := by omega
        exact List.Lex.cons ((ih ha' hb').mpr h')
    · constructor
      · intro h
        cases h with
        | cons h' => exact absurd hxy (lt_irrefl _)
        | rel h' => omega
      · intro h
        have h1 : (y + 1) * S'.prod ≤ x * S'.prod := Nat.mul_le_mul_right _ (by omega)
        have h2 : (y + 1) * S'.prod = y * S'.prod + S'.prod := by ring
        omega

theorem stride_offset_checked_go_isSome :
    ∀ {ds is : List Nat}, List.Forall₂ (fun d i => i < d) ds is →
      ∀ (ss : List Nat) (acc : Int), (stride_offset_checked_go acc ds is ss).isSome := by
  intro ds is h
  induction h with
  | nil =>
    intro ss acc
    cases ss <;> rfl
  | @cons d i ds' is' hdi _h ih =>
    intro ss acc
    cases ss with
    | nil => rfl
    | cons s st =>
      simp only [stride_offset_checked_go]
      rw [if_neg (by omega)]
      exact ih st _

theorem first_index_of_zero {S : List Nat} (h : ∃ d ∈ S, d = 0) :
    first_index S = none := by
  obtain ⟨d, hd, hd0⟩ := h
  unfold first_index
  rw [if_pos (List.any_eq_true.mpr ⟨d, hd, by simp [hd0]⟩)]

/-- Claim C7 (amended): first_index returns the all-zero index when
every extent is nonzero and none otherwise; and provided the product
of the extents does not overflow usize, repeatedly applying next_for
from first_index yields exactly size(S) index values (some before
size(S) steps, none from then on), pairwise distinct and strictly
increasing in row-major order (last axis fastest), each accepted by
index_checked against the default strides, the k-th value having
row-major rank k. -/
theorem enumeration_complete (S : List Nat) :
    ((∀ d ∈ S, d ≠ 0) → first_index S = some (S.map (fun _ => 0))) ∧
    ((∃ d ∈ S, d = 0) → first_index S = none) ∧
    (S.prod < usizeW →
      (∀ k, k < size S → ∃ ix, enum S k = some ix ∧
        (index_checked ix S (default_strides S)).isSome ∧ valFwd S ix = k) ∧
      (∀ k, size S ≤ k → enum S k = none) ∧
      (∀ j k jx kx, j < k → k < size S → enum S j = some jx → enum S k = some kx →
        jx ≠ kx ∧ List.Lex (· < ·) jx kx)) := by
  refine ⟨?_, ?_, ?_⟩
  · intro h
    exact first_index_of_pos (fun d hd => Nat.pos_of_ne_zero (h d hd))
  · exact first_index_of_zero
  · intro hW
    by_cases hz : ∃ d ∈ S, d = 0
    · obtain ⟨d, hd, hd0⟩ := hz
      have hprod0 : S.prod = 0 := List.prod_eq_zero (hd0 ▸ hd)
      have hsz : size S = 0 := by rw [size_eq_prod hW, hprod0]
      refine ⟨?_, ?_, ?_⟩
      · intro k hk
        rw [hsz] at hk
        omega
      · intro k _
        exact enum_none_ge (show enum S 0 = none from first_index_of_zero ⟨d, hd, hd0⟩) k
          (Nat.zero_le k)
      · intro j k jx kx _ hk
        rw [hsz] at hk
        omega
    · push_neg at hz
      have hpos : ∀ d ∈ S, 0 < d := fun d hd => Nat.pos_of_ne_zero (hz d hd)
      have hprodne : S.prod ≠ 0 := Nat.pos_iff_ne_zero.mp (List.prod_pos hpos)
      have hdW : ∀ d ∈ S, d < usizeW := fun d hd =>
        lt_of_le_of_lt (mem_le_prod hd hprodne) hW
      have hsz : size S = S.prod := size_eq_prod hW
      refine ⟨?_, ?_, ?_⟩
      · intro k hk
        rw [hsz] at hk
        refine ⟨fromIdx S k, enum_eq_fromIdx hpos hdW k hk, ?_, valFwd_fromIdx S k hpos hk⟩
        unfold index_checked stride_offset_checked
        exact stride_offset_checked_go_isSome (fromIdx_inb S k hpos) _ 0
      · intro k hk
        rw [hsz] at hk
        exact enum_none_ge (enum_prod_none hpos hdW) k hk
      · intro j k jx kx hjk hk hej hek
        rw [hsz] at hk
        have hj : j < S.prod := by omega
        rw [enum_eq_fromIdx hpos hdW j hj] at hej
        rw [enum_eq_fromIdx hpos hdW k hk] at hek
        have hjx : jx = fromIdx S j := (Option.some.inj hej).symm
        have hkx : kx = fromIdx S k := (Option.some.inj hek).symm
        subst hjx
        subst hkx
        have hvj := valFwd_fromIdx S j hpos hj
        have hvk := valFwd_fromIdx S k hpos hk
        constructor
        · intro heq
          rw [heq, hvk] at hvj
          omega
        · refine (lex_iff_valFwd (fromIdx_inb S j hpos) (fromIdx_inb S k hpos)).mpr ?_
          rw [hvj, hvk]
          exact hjk

/-- Counterexample to C7 as stated: for the machine-representable
shape (2^32, 2^32) the wrapping size() is 0, yet the enumeration is
not exhausted after size(S) steps: it still yields the first index
(0, 0) there instead of none. -/
theorem enumeration_complete_counterexample :
    size [2 ^ 32, 2 ^ 32] = 0 ∧
    enum [2 ^ 32, 2 ^ 32] (size [2 ^ 32, 2 ^ 32]) = some [0, 0] ∧
    (some [0, 0] : Option (List Nat)) ≠ none :=
  ⟨rfl, rfl, by decide⟩

/-- Witness for C7 (amended) at shape [2, 3]: the product 6 is below
2^64, the enumeration is exhausted after size steps, and its sixth
element exists, passes index_checked and has row-major rank 5. -/
theorem enumeration_complete_witness :
    ([2, 3] : List Nat).prod < usizeW ∧
    enum [2, 3] (size [2, 3]) = none ∧
    (∃ ix, enum [2, 3] 5 = some ix ∧
      (index_checked ix [2, 3] (default_strides [2, 3])).isSome ∧
      valFwd [2, 3] ix = 5) :=
  ⟨by decide,
   ((enumeration_complete [2, 3]).2.2 (by decide)).2.1 (size [2, 3]) (le_refl _),
   ((enumeration_complete [2, 3]).2.2 (by decide)).1 5 (by decide)⟩

theorem remove_axis_go_no_skip : ∀ (l : List Nat) (slots i axis : Nat),
    (axis < i ∨ i + l.length ≤ axis) →
    remove_axis_go l slots i axis = l.take slots ++ List.replicate (slots - l.length) 0 := by
  intro l
  induction l with
  | nil =>
    intro slots i axis _
    simp [remove_axis_go]
  | cons d rest ih =>
    intro slots i axis h
    have hia : i ≠ axis := by
      simp only [List.length_cons] at h
      omega
    simp only [remove_axis_go, if_neg hia]
    cases slots with
    | zero => simp
    | succ s =>
      show d :: remove_axis_go rest s (i + 1) axis =
        List.take (s + 1) (d :: rest) ++ List.replicate (s + 1 - (d :: rest).length) 0
      rw [ih s (i + 1) axis (by simp only [List.length_cons] at h ⊢; omega)]
      simp only [List.take_succ_cons, List.cons_append, List.length_cons]
      rw [Nat.succ_sub_succ]

theorem remove_axis_go_eraseIdx : ∀ (l : List Nat) (i axis : Nat),
    i ≤ axis → axis - i < l.length →
    remove_axis_go l (l.length - 1) i axis = l.eraseIdx (axis - i) := by
  intro l
  induction l with
  | nil =>
    intro i axis _ h
    simp at h
  | cons d rest ih =>
    intro i axis hle hlt
    by_cases hia : i = axis
    · have h0 : axis - i = 0 := by omega
      simp only [remove_axis_go, if_pos hia, List.length_cons, Nat.add_sub_cancel, h0,
        List.eraseIdx_cons_zero]
      rw [remove_axis_go_no_skip rest rest.length (i + 1) axis (by omega)]
      simp [List.take_length]
    · have hi1 : i + 1 ≤ axis := by omega
      cases rest with
      | nil =>
        simp only [List.length_cons, List.length_nil] at hlt
        omega
      | cons r rt =>
        have hS : (d :: r :: rt : List Nat).length - 1 = rt.length + 1 := by simp
        rw [hS]
        have hred : remove_axis_go (d :: r :: rt) (rt.length + 1) i axis
            = if i = axis then remove_axis_go (r :: rt) (rt.length + 1) (i + 1) axis
              else d :: remove_axis_go (r :: rt) rt.length (i + 1) axis := rfl
        rw [hred, if_neg hia]
        have hrec := ih (i + 1) axis hi1
          (by simp only [List.length_cons] at hlt ⊢; omega)
        have hS2 : (r :: rt : List Nat).length - 1 = rt.length := by simp
        rw [hS2] at hrec
        rw [hrec]
        have hsucc : axis - i = (axis - (i + 1)) + 1 := by omega
        rw [hsucc, List.eraseIdx_cons_succ]

/-- Claim C9 (amended): only the dynamic-rank remove_axis enforces the
precondition axis < rank, panicking (none) otherwise; for axis < rank
every implementation removes exactly the selected axis (the fixed
array ranks via their slot-filling loop equal eraseIdx), while for
axis >= rank the fixed-rank implementations do not panic: the array
ranks return the first rank - 1 extents, Ix2 returns its first extent
for any nonzero axis (the bound is only debug-asserted) and Ix1
ignores the axis entirely. -/
theorem remove_axis_behavior :
    (∀ (self : List Nat) (axis : Nat), axis < self.length →
      remove_axis_fixed self axis = self.eraseIdx axis) ∧
    (∀ (self : List Nat) (axis : Nat), self.length ≤ axis →
      remove_axis_fixed self axis = self.dropLast) ∧
    (∀ (self : List Nat) (axis : Nat), axis < self.length →
      IxDyn.remove_axis self axis = some (self.eraseIdx axis)) ∧
    (∀ (self : List Nat) (axis : Nat), self.length ≤ axis →
      IxDyn.remove_axis self axis = none) ∧
    (∀ (self : Nat × Nat) (axis : Nat),
      Ix2.remove_axis self axis = (if axis = 0 then self.2 else self.1)) ∧
    (∀ (self : Nat) (axis : Nat), Ix1.remove_axis self axis = ()) := by
  refine ⟨?_, ?_, ?_, ?_, fun _ _ => rfl, fun _ _ => rfl⟩
  · intro self axis h
    unfold remove_axis_fixed
    have := remove_axis_go_eraseIdx self 0 axis (Nat.zero_le axis) (by simpa using h)
    simpa using this
  · intro self axis h
    unfold remove_axis_fixed
    rw [remove_axis_go_no_skip self (self.length - 1) 0 axis (Or.inr (by omega))]
    rw [List.dropLast_eq_take]
    have h0 : self.length - 1 - self.length = 0 := by omega
    rw [h0, List.replicate, List.append_nil]
  · intro self axis h
    unfold IxDyn.remove_axis
    rw [if_pos h]
  · intro self axis h
    unfold IxDyn.remove_axis
    rw [if_neg (by omega)]

/-- Counterexample to C9 as stated: calls with axis at least the rank
return ordinary values from every fixed-rank implementation instead of
aborting; only the dynamic rank panics (none). -/
theorem remove_axis_counterexample :
    remove_axis_fixed [2, 3, 4] 9 = [2, 3] ∧
    Ix2.remove_axis (3, 4) 7 = 3 ∧
    Ix1.remove_axis 5 3 = () ∧
    IxDyn.remove_axis [2, 3, 4] 9 = none :=
  ⟨rfl, rfl, rfl, rfl⟩

/-- Witness for C9 (amended): removing axis 1 of [5, 6, 7] yields
[5, 7], and the dynamic-rank removal of axis 3 panics (none). -/
theorem remove_axis_behavior_witness :
    remove_axis_fixed [5, 6, 7] 1 = [5, 7] ∧
    IxDyn.remove_axis [5, 6, 7] 3 = none := by
  constructor
  · have := remove_axis_behavior.1 [5, 6, 7] 1 (by decide)
    simpa using this
  · exact remove_axis_behavior.2.2.2.1 [5, 6, 7] 3 (by decide)

theorem ix1_next_for_eq (d i : Nat) (hi : i < d) (hd : d < usizeW) :
    (Ix1.next_for d i).map ix1ToList = next_for [d] [i] := by
  have h1 : (i + 1) % usizeW = i + 1 := Nat.mod_eq_of_lt (by omega)
  by_cases hc : i + 1 = d
  · simp [Ix1.next_for, next_for, next_for_go, h1, hc, Nat.mod_eq_of_lt hd]
  · have hlt : i + 1 < d := by omega
    simp [Ix1.next_for, next_for, next_for_go, h1, hc, hlt, ix1ToList]

theorem ix1_equal_eq (a b : Nat) : Ix1.equal a b = Dimension.equal [a] [b] := by
  simp [Ix1.equal, Dimension.equal]

theorem ix1_size_eq (d : Nat) (hd : d < usizeW) : Ix1.size d = size [d] := by
  simp [Ix1.size, size, Nat.mod_eq_of_lt hd]

theorem ix1_size_checked_eq (d : Nat) (hd : d < usizeW) :
    Ix1.size_checked d = size_checked [d] := by
  simp [Ix1.size_checked, size_checked, hd]

theorem ix1_default_strides_eq (d : Nat) :
    ix1ToList (Ix1.default_strides d) = default_strides [d] := rfl

theorem ix1_fastest_eq (s : Nat) :
    ix1ToList (Ix1.fastest_varying_stride_order s) = fastest_varying_stride_order [s] := rfl

theorem ix1_first_index_eq (d : Nat) :
    (Ix1.first_index d).map ix1ToList = first_index [d] := by
  by_cases h : d = 0
  · simp [Ix1.first_index, first_index, h]
  · simp [Ix1.first_index, first_index, h, ix1ToList]

theorem stride_offset_wrapped (i s : Nat) :
    wrapIsize (stride_offset i s) = stride_offset i s :=
  wrapIsize_of_wrapped _

theorem ix1_stride_offset_eq (i s : Nat) :
    Ix1.stride_offset i s = Dimension.stride_offset [i] [s] := by
  simp only [Ix1.stride_offset, rawStrideOffset, Dimension.stride_offset,
    stride_offset_sum_go, zero_add]
  exact (stride_offset_wrapped i s).symm

theorem ix1_stride_offset_checked_eq (d s i : Nat) :
    Ix1.stride_offset_checked d s i = stride_offset_checked [d] [s] [i] := by
  by_cases h : i < d
  · simp only [Ix1.stride_offset_checked, rawStrideOffset, if_pos h,
      stride_offset_checked, stride_offset_checked_go, if_neg (by omega : ¬ i ≥ d), zero_add,
      stride_offset_wrapped]
  · simp only [Ix1.stride_offset_checked, rawStrideOffset, if_neg h,
      stride_offset_checked, stride_offset_checked_go, if_pos (by omega : i ≥ d)]

theorem ix2_next_for_eq (m n i j : Nat) (hi : i < m) (hj : j < n)
    (hm : m < usizeW) (hn : n < usizeW) :
    (Ix2.next_for (m, n) (i, j)).map ix2ToList = next_for [m, n] [i, j] := by
  have h1 : (j + 1) % usizeW = j + 1 := Nat.mod_eq_of_lt (by omega)
  have h2 : (i + 1) % usizeW = i + 1 := Nat.mod_eq_of_lt (by omega)
  by_cases hcj : j + 1 = n
  · by_cases hci : i + 1 = m
    · simp [Ix2.next_for, next_for, next_for_go, h1, h2, hcj, hci, le_refl,
        Nat.mod_eq_of_lt hn, Nat.mod_eq_of_lt hm]
    · have hlti : i + 1 < m := by omega
      simp [Ix2.next_for, next_for, next_for_go, h1, h2, hcj, hci, ix2ToList,
        Nat.mod_eq_of_lt hn, Nat.mod_eq_of_lt hm, show ¬ m ≤ i + 1 by omega]
  · have hltj : j + 1 < n := by omega
    simp [Ix2.next_for, next_for, next_for_go, h1, h2, hcj, ix2ToList,
      not_le.mpr hltj]

theorem ix2_equal_eq (a b : Nat × Nat) :
    Ix2.equal a b = Dimension.equal (ix2ToList a) (ix2ToList b) := by
  simp [Ix2.equal, Dimension.equal, ix2ToList]

theorem ix2_size_eq (m n : Nat) : Ix2.size (m, n) = size [m, n] := by
  simp only [Ix2.size, size, List.foldl_cons, List.foldl_nil, Nat.one_mul]
  rw [Nat.mod_mul_mod]

theorem ix2_size_checked_eq (m n : Nat) (hm : m < usizeW) :
    Ix2.size_checked (m, n) = size_checked [m, n] := by
  simp only [Ix2.size_checked, size_checked, List.foldl_cons, List.foldl_nil,
    Option.some_bind, Nat.one_mul, if_pos hm]

theorem ix2_last_elem_eq (m n : Nat) : Ix2.last_elem (m, n) = last_elem [m, n] := rfl

theorem ix2_set_last_elem_eq (m n v : Nat) :
    some (ix2ToList (Ix2.set_last_elem (m, n) v)) = set_last_elem [m, n] v := rfl

theorem ix2_default_strides_eq (m n : Nat) (hn : n < usizeW) :
    ix2ToList (Ix2.default_strides (m, n)) = default_strides [m, n] := by
  simp only [Ix2.default_strides, ix2ToList, default_strides]
  simp [cumProdGo, Nat.mod_eq_of_lt hn]

theorem ix2_fortran_strides_eq (m n : Nat) (hm : m < usizeW) :
    ix2ToList (Ix2.fortran_strides (m, n)) = fortran_strides [m, n] := by
  simp only [Ix2.fortran_strides, ix2ToList, fortran_strides]
  simp [cumProdGo, Nat.mod_eq_of_lt hm]

theorem ix2_fastest_eq (s t : Nat) (hs : s < halfW) (ht : t < halfW) :
    ix2ToList (Ix2.fastest_varying_stride_order (s, t)) =
      fastest_varying_stride_order [s, t] := by
  have hrange : List.range ([s, t] : List Nat).length = [0, 1] := rfl
  have hiff : (toIxs s ≤ toIxs t) ↔ (s ≤ t) := by
    rw [toIxs_of_lt hs, toIxs_of_lt ht]
    exact Int.ofNat_le
  by_cases hst : s ≤ t
  · simp [Ix2.fastest_varying_stride_order, fastest_varying_stride_order, hrange,
      hiff.mpr hst, hst, ix2ToList, List.insertionSort, List.orderedInsert]
  · have : ¬ toIxs s ≤ toIxs t := fun hx => hst (hiff.mp hx)
    simp [Ix2.fastest_varying_stride_order, fastest_varying_stride_order, hrange,
      this, hst, ix2ToList, List.insertionSort, List.orderedInsert]

theorem ix2_first_index_eq (m n : Nat) :
    (Ix2.first_index (m, n)).map ix2ToList = first_index [m, n] := by
  by_cases hm : m = 0
  · simp [Ix2.first_index, first_index, hm]
  · by_cases hn : n = 0
    · simp [Ix2.first_index, first_index, hm, hn]
    · simp [Ix2.first_index, first_index, hm, hn, ix2ToList]

theorem ix2_stride_offset_eq (index strides : Nat × Nat) :
    Ix2.stride_offset index strides =
      Dimension.stride_offset (ix2ToList index) (ix2ToList strides) := by
  simp only [Ix2.stride_offset, rawStrideOffset, ix2ToList, Dimension.stride_offset,
    stride_offset_sum_go, zero_add, stride_offset_wrapped]

theorem ix2_stride_offset_checked_eq (self strides index : Nat × Nat) :
    Ix2.stride_offset_checked self strides index =
      stride_offset_checked (ix2ToList self) (ix2ToList strides) (ix2ToList index) := by
  by_cases h1 : index.1 < self.1
  · by_cases h2 : index.2 < self.2
    · simp only [Ix2.stride_offset_checked, rawStrideOffset,
        if_pos (show index.1 < self.1 ∧ index.2 < self.2 from ⟨h1, h2⟩), ix2ToList,
        stride_offset_checked, stride_offset_checked_go, if_neg (by omega : ¬ index.1 ≥ self.1),
        if_neg (by omega : ¬ index.2 ≥ self.2), zero_add, stride_offset_wrapped]
    · simp only [Ix2.stride_offset_checked, rawStrideOffset,
        if_neg (by tauto : ¬ (index.1 < self.1 ∧ index.2 < self.2)), ix2ToList,
        stride_offset_checked, stride_offset_checked_go,
        if_neg (by omega : ¬ index.1 ≥ self.1), if_pos (by omega : index.2 ≥ self.2)]
  · simp only [Ix2.stride_offset_checked, rawStrideOffset,
      if_neg (by tauto : ¬ (index.1 < self.1 ∧ index.2 < self.2)), ix2ToList,
      stride_offset_checked, stride_offset_checked_go,
      if_pos (by omega : index.1 ≥ self.1)]

theorem ix3_size_eq (m n o : Nat) : Ix3.size (m, n, o) = size [m, n, o] := by
  simp only [Ix3.size, size, List.foldl_cons, List.foldl_nil, Nat.one_mul]
  simp [Nat.mod_mul_mod]

theorem ix3_next_for_eq (m n o i j k : Nat) :
    (Ix3.next_for (m, n, o) (i, j, k)).map ix3ToList = next_for [m, n, o] [i, j, k] := by
  by_cases h1 : (k + 1) % usizeW = o
  · by_cases h2 : (j + 1) % usizeW = n
    · by_cases h3 : (i + 1) % usizeW = m
      · simp [Ix3.next_for, next_for, next_for_go, h1, h2, h3]
      · simp [Ix3.next_for, next_for, next_for_go, h1, h2, h3, ix3ToList]
    · simp [Ix3.next_for, next_for, next_for_go, h1, h2, ix3ToList]
  · simp [Ix3.next_for, next_for, next_for_go, h1, ix3ToList]

theorem ix3_stride_offset_eq (index strides : Nat × Nat × Nat) :
    Ix3.stride_offset index strides =
      Dimension.stride_offset (ix3ToList index) (ix3ToList strides) := by
  simp only [Ix3.stride_offset, rawStrideOffset, ix3ToList, Dimension.stride_offset,
    stride_offset_sum_go, zero_add, stride_offset_wrapped]

theorem ix3_fastest_eq (s0 s1 s2 : Nat) :
    ix3ToList (Ix3.fastest_varying_stride_order (s0, s1, s2)) =
      fastest_varying_stride_order [s0, s1, s2] := by
  have hrange : List.range ([s0, s1, s2] : List Nat).length = [0, 1, 2] := rfl
  rcases le_or_lt s1 s2 with h12 | h12
  · rcases le_or_lt s0 s1 with h01 | h01
    · simp [Ix3.fastest_varying_stride_order, ix3ToList, fastest_varying_stride_order,
        hrange, List.insertionSort, List.orderedInsert, not_lt.mpr h12, not_lt.mpr h01,
        h12, h01]
    · rcases le_or_lt s0 s2 with h02 | h02
      · simp [Ix3.fastest_varying_stride_order, ix3ToList, fastest_varying_stride_order,
          hrange, List.insertionSort, List.orderedInsert, not_lt.mpr h12, h01, h12, h02,
          not_le.mpr h01, not_lt.mpr h02]
      · simp [Ix3.fastest_varying_stride_order, ix3ToList, fastest_varying_stride_order,
          hrange, List.insertionSort, List.orderedInsert, not_lt.mpr h12, h01, h12,
          not_le.mpr h01, h02, not_le.mpr h02]
  · rcases le_or_lt s0 s2 with h02 | h02
    · simp [Ix3.fastest_varying_stride_order, ix3ToList, fastest_varying_stride_order,
        hrange, List.insertionSort, List.orderedInsert, h12, h02, not_le.mpr h12,
        not_lt.mpr h02, Nat.lt_asymm h12]
    · rcases le_or_lt s0 s1 with h01 | h01
      · simp [Ix3.fastest_varying_stride_order, ix3ToList, fastest_varying_stride_order,
          hrange, List.insertionSort, List.orderedInsert, h12, h02, h01, not_le.mpr h12,
          not_le.mpr h02, not_lt.mpr h01]
      · simp [Ix3.fastest_varying_stride_order, ix3ToList, fastest_varying_stride_order,
          hrange, List.insertionSort, List.orderedInsert, h12, h02, h01, not_le.mpr h12,
          not_le.mpr h02, not_le.mpr h01]

theorem ix2_is_contiguous_eq (m n s t : Nat) (hn : n < usizeW)
    (hs : s < halfW) (ht : t < halfW) :
    Ix2.is_contiguous (m, n) (s, t) = is_contiguous [m, n] [s, t] := by
  have hdef : default_strides [m, n] = [n, 1] := by
    simp [default_strides, cumProdGo, Nat.mod_eq_of_lt hn]
  have hdeq : ((s, t) = Ix2.default_strides (m, n)) ↔
      (([s, t] : List Nat) = default_strides [m, n]) := by
    rw [hdef]
    simp [Ix2.default_strides, Prod.ext_iff]
  unfold Ix2.is_contiguous is_contiguous
  by_cases hd : (s, t) = Ix2.default_strides (m, n)
  · rw [if_pos hd, if_pos (hdeq.mp hd)]
  · rw [if_neg hd, if_neg (fun hx => hd (hdeq.mpr hx))]
    rw [if_neg (by simp : ¬ ([m, n] : List Nat).length = 1)]
    have horder := ix2_fastest_eq s t hs ht
    by_cases hst : s ≤ t
    · have ho2 : Ix2.fastest_varying_stride_order (s, t) = (0, 1) := by
        simp [Ix2.fastest_varying_stride_order, toIxs_of_lt hs, toIxs_of_lt ht,
          Int.ofNat_le.mpr hst]
      have ho1 : fastest_varying_stride_order [s, t] = [0, 1] := by
        rw [← horder, ho2]
        rfl
      rw [ho2, ho1]
      simp [is_contiguous_go, tupGet2]
    · have ho2 : Ix2.fastest_varying_stride_order (s, t) = (1, 0) := by
        have : ¬ (toIxs s ≤ toIxs t) := by
          rw [toIxs_of_lt hs, toIxs_of_lt ht]
          exact fun hx => hst (Int.ofNat_le.mp hx)
        simp [Ix2.fastest_varying_stride_order, this]
      have ho1 : fastest_varying_stride_order [s, t] = [1, 0] := by
        rw [← horder, ho2]
        rfl
      rw [ho2, ho1]
      simp [is_contiguous_go, tupGet2]

/-- Claim C8 (amended): every method overridden by the fixed-rank
implementations Ix1, Ix2, Ix3 agrees with the generic default of the
Dimension trait, except where the overrides genuinely diverge: the
agreements for next_for of Ix1 and Ix2 hold for in-bounds indices (on
an out-of-bounds index the overrides compare with < or >= where the
generic default compares with ==), and those for Ix2's
_fastest_varying_stride_order and is_contiguous hold for strides below
2^63 (the Ix2 order compares the strides as signed values, the generic
default as unsigned ones); methods the claim lists but the impl blocks
do not override coincide with the defaults by inheritance. -/
theorem fixed_rank_agreement :
    (∀ d i : Nat, i < d → d < usizeW →
      (Ix1.next_for d i).map ix1ToList = next_for [d] [i]) ∧
    (∀ a b : Nat, Ix1.equal a b = Dimension.equal [a] [b]) ∧
    (∀ d : Nat, d < usizeW → Ix1.size d = size [d]) ∧
    (∀ d : Nat, d < usizeW → Ix1.size_checked d = size_checked [d]) ∧
    (∀ d : Nat, ix1ToList (Ix1.default_strides d) = default_strides [d]) ∧
    (∀ s : Nat, ix1ToList (Ix1.fastest_varying_stride_order s) =
      fastest_varying_stride_order [s]) ∧
    (∀ d : Nat, (Ix1.first_index d).map ix1ToList = first_index [d]) ∧
    (∀ i s : Nat, Ix1.stride_offset i s = Dimension.stride_offset [i] [s]) ∧
    (∀ d s i : Nat, Ix1.stride_offset_checked d s i = stride_offset_checked [d] [s] [i]) ∧
    (∀ m n i j : Nat, i < m → j < n → m < usizeW → n < usizeW →
      (Ix2.next_for (m, n) (i, j)).map ix2ToList = next_for [m, n] [i, j]) ∧
    (∀ a b : Nat × Nat, Ix2.equal a b = Dimension.equal (ix2ToList a) (ix2ToList b)) ∧
    (∀ m n : Nat, Ix2.size (m, n) = size [m, n]) ∧
    (∀ m n : Nat, m < usizeW → Ix2.size_checked (m, n) = size_checked [m, n]) ∧
    (∀ m n : Nat, Ix2.last_elem (m, n) = last_elem [m, n]) ∧
    (∀ m n v : Nat, some (ix2ToList (Ix2.set_last_elem (m, n) v)) = set_last_elem [m, n] v) ∧
    (∀ m n : Nat, n < usizeW →
      ix2ToList (Ix2.default_strides (m, n)) = default_strides [m, n]) ∧
    (∀ m n : Nat, m < usizeW →
      ix2ToList (Ix2.fortran_strides (m, n)) = fortran_strides [m, n]) ∧
    (∀ s t : Nat, s < halfW → t < halfW →
      ix2ToList (Ix2.fastest_varying_stride_order (s, t)) =
        fastest_varying_stride_order [s, t]) ∧
    (∀ m n : Nat, (Ix2.first_index (m, n)).map ix2ToList = first_index [m, n]) ∧
    (∀ index strides : Nat × Nat, Ix2.stride_offset index strides =
      Dimension.stride_offset (ix2ToList index) (ix2ToList strides)) ∧
    (∀ self strides index : Nat × Nat, Ix2.stride_offset_checked self strides index =
      stride_offset_checked (ix2ToList self) (ix2ToList strides) (ix2ToList index)) ∧
    (∀ m n s t : Nat, n < usizeW → s < halfW → t < halfW →
      Ix2.is_contiguous (m, n) (s, t) = is_contiguous [m, n] [s, t]) ∧
    (∀ m n o : Nat, Ix3.size (m, n, o) = size [m, n, o]) ∧
    (∀ m n o i j k : Nat,
      (Ix3.next_for (m, n, o) (i, j, k)).map ix3ToList = next_for [m, n, o] [i, j, k]) ∧
    (∀ index strides : Nat × Nat × Nat, Ix3.stride_offset index strides =
      Dimension.stride_offset (ix3ToList index) (ix3ToList strides)) ∧
    (∀ s0 s1 s2 : Nat, ix3ToList (Ix3.fastest_varying_stride_order (s0, s1, s2)) =
      fastest_varying_stride_order [s0, s1, s2]) :=
  ⟨ix1_next_for_eq, ix1_equal_eq, ix1_size_eq, ix1_size_checked_eq,
   ix1_default_strides_eq, ix1_fastest_eq, ix1_first_index_eq, ix1_stride_offset_eq,
   ix1_stride_offset_checked_eq, ix2_next_for_eq, ix2_equal_eq, ix2_size_eq,
   ix2_size_checked_eq, ix2_last_elem_eq, ix2_set_last_elem_eq, ix2_default_strides_eq,
   ix2_fortran_strides_eq, ix2_fastest_eq, ix2_first_index_eq, ix2_stride_offset_eq,
   ix2_stride_offset_checked_eq, ix2_is_contiguous_eq, ix3_size_eq, ix3_next_for_eq,
   ix3_stride_offset_eq, ix3_fastest_eq⟩

/-- Counterexample to C8 as stated: Ix1's and Ix2's next_for disagree
with the generic default on out-of-bounds indices, and Ix2's
_fastest_varying_stride_order and is_contiguous disagree with the
generic defaults once a stride reaches 2^63 (signed versus unsigned
comparison). -/
theorem fixed_rank_counterexample :
    (Ix1.next_for 3 5).map ix1ToList ≠ next_for [3] [5] ∧
    (Ix2.next_for (2, 3) (0, 5)).map ix2ToList ≠ next_for [2, 3] [0, 5] ∧
    ix2ToList (Ix2.fastest_varying_stride_order (2 ^ 63, 1)) ≠
      fastest_varying_stride_order [2 ^ 63, 1] ∧
    Ix2.is_contiguous (2 ^ 63, 2) (1, 2 ^ 63) ≠ is_contiguous [2 ^ 63, 2] [1, 2 ^ 63] :=
  ⟨by decide, by decide, by decide, by decide⟩

/-- Witness for C8 (amended) at small inputs: next_for of Ix1, the
stride order of Ix2 and is_contiguous of Ix2 agree with the generic
defaults. -/
theorem fixed_rank_agreement_witness :
    (Ix1.next_for 3 1).map ix1ToList = next_for [3] [1] ∧
    ix2ToList (Ix2.fastest_varying_stride_order (5, 2)) =
      fastest_varying_stride_order [5, 2] ∧
    Ix2.is_contiguous (2, 3) (3, 1) = is_contiguous [2, 3] [3, 1] :=
  ⟨fixed_rank_agreement.1 3 1 (by decide) (by decide),
   (fixed_rank_agreement.2.2.2.2.2.2.2.2.2.2.2.2.2.2.2.2.2.1) 5 2 (by decide) (by decide),
   (fixed_rank_agreement.2.2.2.2.2.2.2.2.2.2.2.2.2.2.2.2.2.2.2.2.2.1) 2 3 3 1
     (by decide) (by decide) (by decide)⟩
